import Mathlib

/-!
# FileCache: capability ledger and activity-gated I/O

A shallow embedding of `src/ceph/client/FileCache.cc`.

* C `int` values (capability masks, counters, return codes) are mathematical
  integers in two's complement; the bitwise operators `~`, `&`, `|` are
  `bitNot`, `bitAnd`, `bitOr`.  Bitwise operators never overflow, so on values
  in the range of `int` they agree with the machine operators.
* `std::map<int, list<Context*> >` is a list of `(key, handlers)` entries in
  ascending key order; `Context*` is a handler identity.
* The object cacher `oc` is external.  Each of its answers is an argument of
  the embedded function, and each call made to it is recorded in the returned
  trace of `Event`s, together with every handler that is fired.
-/

namespace FileCache

/-! ## C integer bit operations -/

/-- C `~a` on a two's-complement integer. -/
def bitNot : Int → Int
  | Int.ofNat m => Int.negSucc m
  | Int.negSucc m => Int.ofNat m

/-- C `a & b` on two's-complement integers. -/
def bitAnd : Int → Int → Int
  | Int.ofNat m, Int.ofNat n => Int.ofNat (m &&& n)
  | Int.ofNat m, Int.negSucc n => Int.ofNat (m ^^^ (m &&& n))
  | Int.negSucc m, Int.ofNat n => Int.ofNat (n ^^^ (n &&& m))
  | Int.negSucc m, Int.negSucc n => Int.negSucc (m ||| n)

/-- C `a | b` on two's-complement integers. -/
def bitOr : Int → Int → Int
  | Int.ofNat m, Int.ofNat n => Int.ofNat (m ||| n)
  | Int.ofNat m, Int.negSucc n => Int.negSucc (n ^^^ (n &&& m))
  | Int.negSucc m, Int.ofNat n => Int.negSucc (m ^^^ (m &&& n))
  | Int.negSucc m, Int.negSucc n => Int.negSucc (m &&& n)

/-- Bit `i` of a two's-complement integer. -/
def bit (a : Int) (i : Nat) : Bool := Int.testBit a i

/-! ## Data model -/

/-- A completion handler (`Context*`), identified by its address. -/
abbrev Context := Nat

/-- The four capability flags `CAP_FILE_*`.  Their values are defined in a
header outside the translated source, so they are parameters of the model. -/
structure CapBits where
  CAP_FILE_RD : Int
  CAP_FILE_RDCACHE : Int
  CAP_FILE_WR : Int
  CAP_FILE_WRBUFFER : Int
deriving DecidableEq

/-- The four flags are non-zero and pairwise share no bit. -/
def CapBits.distinct_flags (B : CapBits) : Prop :=
  B.CAP_FILE_RD ≠ 0 ∧ B.CAP_FILE_RDCACHE ≠ 0 ∧
  B.CAP_FILE_WR ≠ 0 ∧ B.CAP_FILE_WRBUFFER ≠ 0 ∧
  bitAnd B.CAP_FILE_RD B.CAP_FILE_RDCACHE = 0 ∧
  bitAnd B.CAP_FILE_RD B.CAP_FILE_WR = 0 ∧
  bitAnd B.CAP_FILE_RD B.CAP_FILE_WRBUFFER = 0 ∧
  bitAnd B.CAP_FILE_RDCACHE B.CAP_FILE_WR = 0 ∧
  bitAnd B.CAP_FILE_RDCACHE B.CAP_FILE_WRBUFFER = 0 ∧
  bitAnd B.CAP_FILE_WR B.CAP_FILE_WRBUFFER = 0

instance (B : CapBits) : Decidable B.distinct_flags := by
  unfold CapBits.distinct_flags
  infer_instance

/-- The callback table `map<int, list<Context*> >`: entries in ascending key
order. -/
abbrev Callbacks := List (Int × List Context)

/-- The fields of a `FileCache` object. -/
structure State where
  latest_caps : Int
  caps_callbacks : Callbacks
  num_reading : Int
  num_writing : Int
deriving DecidableEq

/-- Calls made to the object cacher, waits on the private condition of `read`,
and what happens to handlers, in the order they happen.  `finish c r` is
`c->finish(r); delete c` (the handler is fired and released); `delete c` is a
handler released without being fired. -/
inductive Event where
  | flush_set (onflush : Context)
  | release_set
  | commit_set (c : Context)
  | file_read (offset : Int) (size : Nat) (onfinish : Context)
  | file_atomic_sync_read (offset : Int) (size : Nat)
  | wait_for_write (size : Nat)
  | file_write (offset : Int) (size : Nat)
  | file_atomic_sync_write (offset : Int) (size : Nat)
  | cond_wait
  | delete (c : Context)
  | finish (c : Context) (r : Int)
deriving DecidableEq

/-- How a call that contains an `assert` ends: it returns, or the assertion
fails; either way with the object state and the trace at that point. -/
inductive Outcome where
  | returned (s : State) (trace : List Event)
  | aborted (s : State) (trace : List Event)
deriving DecidableEq

/-- Whether an event is a call made to the object cacher. -/
def Event.oc_call : Event → Bool
  | Event.cond_wait => false
  | Event.delete _ => false
  | Event.finish _ _ => false
  | _ => true

/-- The handlers fired in a trace, in order. -/
def fired : List Event → List Context
  | [] => []
  | Event.finish c _ :: t => c :: fired t
  | _ :: t => fired t

/-! ## Capability ledger -/

/-- Modelled from the spec: `finish_contexts` is defined in a header outside
the translated source; it fires every handler of the list once, in list
order, with result 0, and releases it. -/
def finish_contexts (ls : List Context) : List Event :=
  ls.map (fun c => Event.finish c 0)

/-- The mask `used` computed at the start of `check_caps`. -/
def check_caps_used (B : CapBits) (s : State)
    (set_is_cached set_is_dirty_or_committing : Bool) : Int :=
  let used : Int := 0
  let used := if s.num_reading ≠ 0 then bitOr used B.CAP_FILE_RD else used
  let used := if set_is_cached then bitOr used B.CAP_FILE_RDCACHE else used
  let used := if s.num_writing ≠ 0 then bitOr used B.CAP_FILE_WR else used
  let used := if set_is_dirty_or_committing then bitOr used B.CAP_FILE_WRBUFFER else used
  used

/-- The `while` loop of `check_caps` over the remaining entries: the entries
kept in the table, and the entries handed to `finish_contexts` and erased. -/
def check_caps_loop (used : Int) : Callbacks → Callbacks × Callbacks
  | [] => ([], [])
  | p :: rest =>
    if bitAnd (bitNot p.1) used ≠ 0 then
      ((check_caps_loop used rest).1, p :: (check_caps_loop used rest).2)
    else
      (p :: (check_caps_loop used rest).1, (check_caps_loop used rest).2)

/-- The groups that one run of `check_caps` hands to `finish_contexts`. -/
def check_caps_implemented (B : CapBits) (s : State)
    (set_is_cached set_is_dirty_or_committing : Bool) : Callbacks :=
  (check_caps_loop (check_caps_used B s set_is_cached set_is_dirty_or_committing)
    s.caps_callbacks).2

/-- `FileCache::check_caps`. -/
def check_caps (B : CapBits) (s : State)
    (set_is_cached set_is_dirty_or_committing : Bool) : State × List Event :=
  let used := check_caps_used B s set_is_cached set_is_dirty_or_committing
  let r := check_caps_loop used s.caps_callbacks
  ({ s with caps_callbacks := r.1 }, r.2.flatMap (fun p => finish_contexts p.2))

/-- The effect of `caps_callbacks[caps].push_back(c)` on the ordered table. -/
def push_back : Callbacks → Int → Context → Callbacks
  | [], caps, c => [(caps, [c])]
  | p :: rest, caps, c =>
    if caps < p.1 then (caps, [c]) :: p :: rest
    else if caps = p.1 then (p.1, p.2 ++ [c]) :: rest
    else p :: push_back rest caps c

/-- `FileCache::set_caps`; `onimplement` is `none` for a null pointer. -/
def set_caps (B : CapBits) (s : State) (caps : Int) (onimplement : Option Context)
    (set_is_cached set_is_dirty_or_committing : Bool) : Outcome :=
  match onimplement with
  | some c =>
    if bitAnd s.latest_caps (bitNot caps) ≠ 0 then
      let s1 := { s with caps_callbacks := push_back s.caps_callbacks caps c }
      let s2 := { s1 with latest_caps := caps }
      let r := check_caps B s2 set_is_cached set_is_dirty_or_committing
      Outcome.returned r.1 r.2
    else
      Outcome.aborted s []
  | none =>
    let s2 := { s with latest_caps := caps }
    let r := check_caps B s2 set_is_cached set_is_dirty_or_committing
    Outcome.returned r.1 r.2

/-! ## Drain and durability -/

/-- `FileCache::flush_dirty`; `flush_set` is the answer of `oc->flush_set`. -/
def flush_dirty (onflush : Context) (flush_set : Bool) : List Event :=
  if flush_set then [Event.flush_set onflush, Event.finish onflush 0]
  else [Event.flush_set onflush]

/-- `FileCache::release_clean`; `release_set` is the answer of
`oc->release_set`. -/
def release_clean (release_set : Int) : List Event × Int :=
  ([Event.release_set], release_set)

/-- `FileCache::is_cached`. -/
def is_cached (set_is_cached : Bool) : Bool := set_is_cached

/-- `FileCache::is_dirty`. -/
def is_dirty (set_is_dirty_or_committing : Bool) : Bool := set_is_dirty_or_committing

/-- `FileCache::empty`; `release_set` and `flush_set` are the answers of the
object cacher. -/
def empty (s : State) (onempty : Context) (release_set : Int) (flush_set : Bool) : Outcome :=
  let r := release_clean release_set
  let unclean := r.2
  let clean := flush_set
  let t := r.1 ++ [Event.flush_set onempty]
  if decide (unclean = 0) = clean then
    if clean then Outcome.returned s (t ++ [Event.finish onempty 0])
    else Outcome.returned s t
  else Outcome.aborted s t

/-- `FileCache::all_safe`. -/
def all_safe (set_is_dirty_or_committing : Bool) : Bool := !set_is_dirty_or_committing

/-- `FileCache::add_safe_waiter`; `commit_set` is the answer of
`oc->commit_set`. -/
def add_safe_waiter (c : Context) (commit_set : Bool) : List Event :=
  let safe := commit_set
  if safe then [Event.commit_set c, Event.finish c 0]
  else [Event.commit_set c]

/-! ## Activity-gated I/O

The counters are C `int`s; they are modelled as unbounded integers (a counter
would wrap only with 2^31 calls in flight at once). -/

/-- What the environment answers during one `read` call. -/
structure ReadAnswers where
  /-- The address of the private completion `new C_Cond(..)`. -/
  onfinish : Context
  /-- The value returned by `oc->file_read`. -/
  file_read : Int
  /-- What each evaluation of the loop condition `!done` sees, the first one
  right after `file_read` returned: `none` while the completion has not fired,
  `some rvalue` once it has fired and recorded `rvalue`. -/
  done : List (Option Int)
  /-- The value returned by `oc->file_atomic_sync_read`. -/
  file_atomic_sync_read : Int
  /-- The answer of `oc->set_is_cached` if `check_caps` runs on exit. -/
  set_is_cached : Bool
  /-- The answer of `oc->set_is_dirty_or_committing` if `check_caps` runs on exit. -/
  set_is_dirty_or_committing : Bool
deriving DecidableEq

/-- The loop `while (!done) cond.Wait(client_lock); r = rvalue;` of `read`:
the waits made, and the value read from `rvalue`, or `none` when the
completion never fires and the last wait never ends. -/
def read_wait : List (Option Int) → List Event × Option Int
  | [] => ([], none)
  | some rvalue :: _ => ([], some rvalue)
  | none :: rest => (Event.cond_wait :: (read_wait rest).1, (read_wait rest).2)

/-- Entry of `read`: `num_reading++`. -/
def read_enter (s : State) : State :=
  { s with num_reading := s.num_reading + 1 }

/-- The branch of `read` on `latest_caps & CAP_FILE_RDCACHE`: the trace, and
the value of `r`, or `none` when the wait never ends. -/
def read_body (B : CapBits) (s : State) (offset : Int) (size : Nat) (a : ReadAnswers) :
    List Event × Option Int :=
  if bitAnd s.latest_caps B.CAP_FILE_RDCACHE ≠ 0 then
    let r := a.file_read
    if r = 0 then
      (Event.file_read offset size a.onfinish :: (read_wait a.done).1, (read_wait a.done).2)
    else
      ([Event.file_read offset size a.onfinish, Event.delete a.onfinish], some r)
  else
    ([Event.file_atomic_sync_read offset size], some a.file_atomic_sync_read)

/-- Exit of `read`: `num_reading--`, then `check_caps` when the counter is zero
and the table is not empty. -/
def read_exit (B : CapBits) (s : State)
    (set_is_cached set_is_dirty_or_committing : Bool) : State × List Event :=
  let s1 := { s with num_reading := s.num_reading - 1 }
  if s1.num_reading = 0 ∧ s1.caps_callbacks ≠ [] then
    check_caps B s1 set_is_cached set_is_dirty_or_committing
  else (s1, [])

/-- How a `read` call ends: it returns `r`, or it waits for ever on its
private condition; either way with the object state and the trace. -/
inductive ReadOutcome where
  | returned (s : State) (trace : List Event) (r : Int)
  | blocked (s : State) (trace : List Event)
deriving DecidableEq

/-- The trace of a `read` call. -/
def ReadOutcome.trace : ReadOutcome → List Event
  | ReadOutcome.returned _ t _ => t
  | ReadOutcome.blocked _ t => t

/-- `FileCache::read` run without another call interleaved. -/
def read (B : CapBits) (s : State) (offset : Int) (size : Nat) (a : ReadAnswers) :
    ReadOutcome :=
  let s1 := read_enter s
  let b := read_body B s1 offset size a
  match b.2 with
  | some r =>
    let e := read_exit B s1 a.set_is_cached a.set_is_dirty_or_committing
    ReadOutcome.returned e.1 (b.1 ++ e.2) r
  | none => ReadOutcome.blocked s1 b.1

/-- Entry of `write`: `num_writing++`. -/
def write_enter (s : State) : State :=
  { s with num_writing := s.num_writing + 1 }

/-- The branch of `write` on `latest_caps & CAP_FILE_WRBUFFER`. -/
def write_body (B : CapBits) (s : State) (offset : Int) (size : Nat) : List Event :=
  if bitAnd s.latest_caps B.CAP_FILE_WRBUFFER ≠ 0 then
    [Event.wait_for_write size, Event.file_write offset size]
  else
    [Event.file_atomic_sync_write offset size]

/-- Exit of `write`: `num_writing--`, then `check_caps` when the counter is
zero and the table is not empty. -/
def write_exit (B : CapBits) (s : State)
    (set_is_cached set_is_dirty_or_committing : Bool) : State × List Event :=
  let s1 := { s with num_writing := s.num_writing - 1 }
  if s1.num_writing = 0 ∧ s1.caps_callbacks ≠ [] then
    check_caps B s1 set_is_cached set_is_dirty_or_committing
  else (s1, [])

/-- `FileCache::write` run without another call interleaved. -/
def write (B : CapBits) (s : State) (offset : Int) (size : Nat)
    (set_is_cached set_is_dirty_or_committing : Bool) : State × List Event :=
  let s1 := write_enter s
  let t := write_body B s1 offset size
  let e := write_exit B s1 set_is_cached set_is_dirty_or_committing
  (e.1, t ++ e.2)

/-! ## Interleaved calls

Every entry point runs under the client lock, and a `read` or `write` gives the
lock up only while it is blocked between its entry and its exit.  An
interleaving is therefore a sequence of atomic steps. -/

/-- One atomic step on a `FileCache` object. -/
inductive Step where
  | read_enter
  | read_exit (set_is_cached set_is_dirty_or_committing : Bool)
  | write_enter
  | write_exit (set_is_cached set_is_dirty_or_committing : Bool)
  | set_caps (caps : Int) (onimplement : Option Context)
      (set_is_cached set_is_dirty_or_committing : Bool)
  | check_caps (set_is_cached set_is_dirty_or_committing : Bool)
deriving DecidableEq

/-- The object together with the calls in flight and the handlers fired so
far. -/
structure Sched where
  fc : State
  reads : Nat
  writes : Nat
  trace : List Event
deriving DecidableEq

/-- One step of an interleaving; `none` when the step cannot happen (an exit
with no such call in flight) or the process is aborted by an assertion. -/
def step (B : CapBits) (σ : Sched) : Step → Option Sched
  | Step.read_enter => some { σ with fc := read_enter σ.fc, reads := σ.reads + 1 }
  | Step.read_exit c d =>
    if σ.reads = 0 then none
    else
      let e := read_exit B σ.fc c d
      some { σ with fc := e.1, reads := σ.reads - 1, trace := σ.trace ++ e.2 }
  | Step.write_enter => some { σ with fc := write_enter σ.fc, writes := σ.writes + 1 }
  | Step.write_exit c d =>
    if σ.writes = 0 then none
    else
      let e := write_exit B σ.fc c d
      some { σ with fc := e.1, writes := σ.writes - 1, trace := σ.trace ++ e.2 }
  | Step.set_caps caps onimplement c d =>
    match FileCache.set_caps B σ.fc caps onimplement c d with
    | Outcome.returned s t => some { σ with fc := s, trace := σ.trace ++ t }
    | Outcome.aborted _ _ => none
  | Step.check_caps c d =>
    let e := FileCache.check_caps B σ.fc c d
    some { σ with fc := e.1, trace := σ.trace ++ e.2 }

/-- A sequence of steps, run from `σ`. -/
def run (B : CapBits) : Sched → List Step → Option Sched
  | σ, [] => some σ
  | σ, x :: rest =>
    match step B σ x with
    | some σ1 => run B σ1 rest
    | none => none

/-- An object with no call in flight. -/
def idle (s : State) : Sched :=
  { fc := s, reads := 0, writes := 0, trace := [] }

/-- The counters agree with the calls in flight. -/
def counted (σ : Sched) : Prop :=
  σ.fc.num_reading = σ.reads ∧ σ.fc.num_writing = σ.writes

/-- Modelled from the spec: `ObjectCacher::commit_set` is outside the
translated source.  The spec has a safe waiter fire immediately "if already
safe", and safe is "no dirty-or-committing data for this file": the answer is
`true` exactly when the cache reports no dirty-or-committing data. -/
def oc_commit_set (set_is_dirty_or_committing : Bool) : Bool :=
  !set_is_dirty_or_committing

/-- The handlers stored in a callback table, group after group. -/
def handlers (tbl : Callbacks) : List Context :=
  tbl.flatMap (fun p => p.2)

/-- The keys of a callback table are strictly ascending, as in a `std::map`. -/
def ordered (tbl : Callbacks) : Prop :=
  (tbl.map (fun p => p.1)).Pairwise (fun a b => a < b)

instance (tbl : Callbacks) : Decidable (ordered tbl) := by
  unfold ordered
  infer_instance

/-- The list stored under key `caps`, empty when there is no such key. -/
def stored (tbl : Callbacks) (caps : Int) : List Context :=
  match tbl.find? (fun p => decide (p.1 = caps)) with
  | some p => p.2
  | none => []

/-- The completions handed to `set_caps` in a sequence of steps. -/
def supplied : List Step → List Context
  | [] => []
  | Step.set_caps _ (some c) _ _ :: rest => c :: supplied rest
  | _ :: rest => supplied rest

/-- A concrete choice of single-bit flag values, used for concrete runs. -/
def ceph_bits : CapBits :=
  { CAP_FILE_RD := 2, CAP_FILE_RDCACHE := 1, CAP_FILE_WR := 4, CAP_FILE_WRBUFFER := 16 }


/-! ## Bit-level facts -/

theorem bit_bitNot (a : Int) (i : Nat) : bit (bitNot a) i = !bit a i := by
  cases a <;> simp [bit, bitNot, Int.testBit]

theorem bit_bitAnd (a b : Int) (i : Nat) : bit (bitAnd a b) i = (bit a i && bit b i) := by
  cases a <;> cases b <;> simp [bit, bitAnd, Int.testBit] <;>
    cases Nat.testBit _ i <;> cases Nat.testBit _ i <;> rfl

theorem bit_bitOr (a b : Int) (i : Nat) : bit (bitOr a b) i = (bit a i || bit b i) := by
  cases a <;> cases b <;> simp [bit, bitOr, Int.testBit] <;>
    cases Nat.testBit _ i <;> cases Nat.testBit _ i <;> rfl

theorem bit_zero (i : Nat) : bit 0 i = false := by
  show Int.testBit (Int.ofNat 0) i = false
  simp [Int.testBit]

theorem exists_bit_of_ne_zero {a : Int} (h : a ≠ 0) : ∃ i, bit a i = true := by
  cases a with
  | ofNat n =>
    have hn : n ≠ 0 := by
      intro h0
      exact h (by simp [h0])
    obtain ⟨i, hi⟩ := Nat.ne_zero_implies_bit_true hn
    exact ⟨i, by simpa [bit, Int.testBit] using hi⟩
  | negSucc n =>
    exact ⟨n, by simp [bit, Int.testBit, Nat.testBit_lt_two_pow (Nat.lt_two_pow n)]⟩

theorem ne_zero_iff_bit (a : Int) : a ≠ 0 ↔ ∃ i, bit a i = true := by
  constructor
  · exact exists_bit_of_ne_zero
  · rintro ⟨i, hi⟩ h0
    rw [h0, bit_zero] at hi
    exact Bool.false_ne_true hi

theorem eq_zero_iff_bit (a : Int) : a = 0 ↔ ∀ i, bit a i = false := by
  constructor
  · intro h i
    rw [h, bit_zero]
  · intro h
    by_contra h0
    obtain ⟨i, hi⟩ := exists_bit_of_ne_zero h0
    rw [h i] at hi
    exact Bool.false_ne_true hi

theorem bitAnd_comm (a b : Int) : bitAnd a b = bitAnd b a := by
  cases a <;> cases b <;> simp [bitAnd, Nat.land_comm, Nat.lor_comm]

theorem bitAnd_ne_zero_iff (a b : Int) :
    bitAnd a b ≠ 0 ↔ ∃ i, bit a i = true ∧ bit b i = true := by
  rw [ne_zero_iff_bit]
  simp [bit_bitAnd]

theorem bitAnd_eq_zero_iff (a b : Int) :
    bitAnd a b = 0 ↔ ∀ i, bit a i = true → bit b i = false := by
  rw [eq_zero_iff_bit]
  simp [bit_bitAnd]

theorem bitOr_zero_left (a : Int) : bitOr 0 a = a := by
  cases a with
  | ofNat n => show Int.ofNat (0 ||| n) = Int.ofNat n; simp
  | negSucc n => show Int.negSucc (n ^^^ (n &&& 0)) = Int.negSucc n; simp

theorem bit_check_caps_used (B : CapBits) (s : State) (c d : Bool) (i : Nat) :
    bit (check_caps_used B s c d) i =
      ((decide (s.num_reading ≠ 0) && bit B.CAP_FILE_RD i) ||
       (c && bit B.CAP_FILE_RDCACHE i) ||
       (decide (s.num_writing ≠ 0) && bit B.CAP_FILE_WR i) ||
       (d && bit B.CAP_FILE_WRBUFFER i)) := by
  unfold check_caps_used
  by_cases hr : s.num_reading = 0 <;> by_cases hw : s.num_writing = 0 <;>
    cases c <;> cases d <;> simp [hr, hw, bit_bitOr, bit_zero]

/-! ## The loop of `check_caps` -/

theorem check_caps_loop_fst (used : Int) (tbl : Callbacks) :
    (check_caps_loop used tbl).1 =
      tbl.filter (fun p => decide (bitAnd (bitNot p.1) used = 0)) := by
  induction tbl with
  | nil => rfl
  | cons p rest ih =>
    by_cases h : bitAnd (bitNot p.1) used = 0 <;>
      simp [check_caps_loop, h, ih, List.filter_cons]

theorem check_caps_loop_snd (used : Int) (tbl : Callbacks) :
    (check_caps_loop used tbl).2 =
      tbl.filter (fun p => decide (bitAnd (bitNot p.1) used ≠ 0)) := by
  induction tbl with
  | nil => rfl
  | cons p rest ih =>
    by_cases h : bitAnd (bitNot p.1) used = 0 <;>
      simp [check_caps_loop, h, ih, List.filter_cons]

theorem fired_append (t u : List Event) : fired (t ++ u) = fired t ++ fired u := by
  induction t with
  | nil => rfl
  | cons e t ih => cases e <;> simp [fired, ih]

theorem fired_finish_contexts (ls : List Context) : fired (finish_contexts ls) = ls := by
  induction ls with
  | nil => rfl
  | cons c ls ih =>
    simp only [finish_contexts, List.map_cons, fired] at ih ⊢
    rw [ih]

theorem fired_flatMap_finish_contexts (tbl : Callbacks) :
    fired (tbl.flatMap (fun p => finish_contexts p.2)) = tbl.flatMap (fun p => p.2) := by
  induction tbl with
  | nil => rfl
  | cons p rest ih =>
    simp [List.flatMap_cons, fired_append, fired_finish_contexts, ih]

theorem mem_check_caps_implemented (B : CapBits) (s : State) (c d : Bool)
    (p : Int × List Context) :
    p ∈ check_caps_implemented B s c d ↔
      p ∈ s.caps_callbacks ∧ bitAnd (check_caps_used B s c d) (bitNot p.1) ≠ 0 := by
  unfold check_caps_implemented
  rw [check_caps_loop_snd, List.mem_filter, bitAnd_comm]
  simp


/-! ## Counters -/

theorem check_caps_counters (B : CapBits) (s : State) (c d : Bool) :
    (check_caps B s c d).1.num_reading = s.num_reading ∧
    (check_caps B s c d).1.num_writing = s.num_writing := ⟨rfl, rfl⟩

theorem read_exit_counters (B : CapBits) (s : State) (c d : Bool) :
    (read_exit B s c d).1.num_reading = s.num_reading - 1 ∧
    (read_exit B s c d).1.num_writing = s.num_writing := by
  simp only [read_exit]
  split <;> exact ⟨rfl, rfl⟩

theorem write_exit_counters (B : CapBits) (s : State) (c d : Bool) :
    (write_exit B s c d).1.num_reading = s.num_reading ∧
    (write_exit B s c d).1.num_writing = s.num_writing - 1 := by
  simp only [write_exit]
  split <;> exact ⟨rfl, rfl⟩

theorem set_caps_counters (B : CapBits) (s : State) (caps : Int) (o : Option Context)
    (c d : Bool) (s1 : State) (t : List Event)
    (h : set_caps B s caps o c d = Outcome.returned s1 t) :
    s1.num_reading = s.num_reading ∧ s1.num_writing = s.num_writing := by
  unfold set_caps at h
  cases o with
  | none =>
    simp only [Outcome.returned.injEq] at h
    rw [← h.1]
    exact ⟨rfl, rfl⟩
  | some k =>
    simp only at h
    split at h
    · simp only [Outcome.returned.injEq] at h
      rw [← h.1]
      exact ⟨rfl, rfl⟩
    · cases h

theorem step_counted (B : CapBits) (σ σ1 : Sched) (x : Step)
    (h : step B σ x = some σ1) (hc : counted σ) : counted σ1 := by
  obtain ⟨hr, hw⟩ := hc
  cases x with
  | read_enter =>
    simp only [step, Option.some.injEq] at h
    subst h
    exact ⟨by simp [read_enter, hr], by simp [read_enter, hw]⟩
  | read_exit c d =>
    simp only [step] at h
    split at h
    · cases h
    · rename_i hpos
      simp only [Option.some.injEq] at h
      subst h
      have e := read_exit_counters B σ.fc c d
      refine ⟨?_, ?_⟩
      · show (read_exit B σ.fc c d).1.num_reading = ((σ.reads - 1 : Nat) : Int)
        rw [e.1, hr]
        omega
      · show (read_exit B σ.fc c d).1.num_writing = (σ.writes : Int)
        rw [e.2, hw]
  | write_enter =>
    simp only [step, Option.some.injEq] at h
    subst h
    exact ⟨by simp [write_enter, hr], by simp [write_enter, hw]⟩
  | write_exit c d =>
    simp only [step] at h
    split at h
    · cases h
    · rename_i hpos
      simp only [Option.some.injEq] at h
      subst h
      have e := write_exit_counters B σ.fc c d
      refine ⟨?_, ?_⟩
      · show (write_exit B σ.fc c d).1.num_reading = (σ.reads : Int)
        rw [e.1, hr]
      · show (write_exit B σ.fc c d).1.num_writing = ((σ.writes - 1 : Nat) : Int)
        rw [e.2, hw]
        omega
  | set_caps caps o c d =>
    simp only [step] at h
    split at h
    · rename_i s1 t hs
      simp only [Option.some.injEq] at h
      subst h
      have e := set_caps_counters B σ.fc caps o c d s1 t hs
      exact ⟨e.1.trans hr, e.2.trans hw⟩
    · cases h
  | check_caps c d =>
    simp only [step, Option.some.injEq] at h
    subst h
    exact ⟨hr, hw⟩

theorem run_counted (B : CapBits) (steps : List Step) :
    ∀ σ σ1 : Sched, run B σ steps = some σ1 → counted σ → counted σ1 := by
  induction steps with
  | nil =>
    intro σ σ1 h hc
    simp only [run, Option.some.injEq] at h
    subst h
    exact hc
  | cons x rest ih =>
    intro σ σ1 h hc
    simp only [run] at h
    split at h
    · rename_i σ2 hs
      exact ih σ2 σ1 h (step_counted B σ σ2 x hs hc)
    · cases h

/-! ## Traces -/

theorem filter_oc_call_finish_contexts (tbl : Callbacks) :
    (tbl.flatMap (fun p => finish_contexts p.2)).filter Event.oc_call = [] := by
  rw [List.filter_eq_nil_iff]
  intro e he
  obtain ⟨p, _, hp⟩ := List.mem_flatMap.1 he
  obtain ⟨h, _, rfl⟩ := List.mem_map.1 hp
  simp [Event.oc_call]

theorem cond_wait_not_mem_finish_contexts (tbl : Callbacks) :
    Event.cond_wait ∉ tbl.flatMap (fun p => finish_contexts p.2) := by
  intro he
  obtain ⟨p, _, hp⟩ := List.mem_flatMap.1 he
  obtain ⟨h, _, e⟩ := List.mem_map.1 hp
  cases e

theorem filter_oc_call_check_caps (B : CapBits) (s : State) (c d : Bool) :
    (check_caps B s c d).2.filter Event.oc_call = [] :=
  filter_oc_call_finish_contexts _

theorem cond_wait_not_mem_check_caps (B : CapBits) (s : State) (c d : Bool) :
    Event.cond_wait ∉ (check_caps B s c d).2 :=
  cond_wait_not_mem_finish_contexts _

theorem filter_oc_call_read_exit (B : CapBits) (s : State) (c d : Bool) :
    (read_exit B s c d).2.filter Event.oc_call = [] := by
  simp only [read_exit]
  split
  · exact filter_oc_call_check_caps _ _ _ _
  · rfl

theorem cond_wait_not_mem_read_exit (B : CapBits) (s : State) (c d : Bool) :
    Event.cond_wait ∉ (read_exit B s c d).2 := by
  simp only [read_exit]
  split
  · exact cond_wait_not_mem_check_caps _ _ _ _
  · exact List.not_mem_nil _

theorem filter_oc_call_write_exit (B : CapBits) (s : State) (c d : Bool) :
    (write_exit B s c d).2.filter Event.oc_call = [] := by
  simp only [write_exit]
  split
  · exact filter_oc_call_check_caps _ _ _ _
  · rfl

theorem filter_oc_call_read_wait (obs : List (Option Int)) :
    (read_wait obs).1.filter Event.oc_call = [] := by
  induction obs with
  | nil => rfl
  | cons o rest ih =>
    cases o with
    | none => simpa [read_wait, Event.oc_call] using ih
    | some v => rfl

theorem read_of_not_cached (B : CapBits) (s : State) (offset : Int) (size : Nat)
    (a : ReadAnswers) (h : bitAnd s.latest_caps B.CAP_FILE_RDCACHE = 0) :
    read B s offset size a =
      ReadOutcome.returned
        (read_exit B (read_enter s) a.set_is_cached a.set_is_dirty_or_committing).1
        (Event.file_atomic_sync_read offset size ::
          (read_exit B (read_enter s) a.set_is_cached a.set_is_dirty_or_committing).2)
        a.file_atomic_sync_read := by
  have h1 : bitAnd (read_enter s).latest_caps B.CAP_FILE_RDCACHE = 0 := h
  simp [read, read_body, h1]

theorem read_of_cached_now (B : CapBits) (s : State) (offset : Int) (size : Nat)
    (a : ReadAnswers) (h : bitAnd s.latest_caps B.CAP_FILE_RDCACHE ≠ 0)
    (hr : a.file_read ≠ 0) :
    read B s offset size a =
      ReadOutcome.returned
        (read_exit B (read_enter s) a.set_is_cached a.set_is_dirty_or_committing).1
        ([Event.file_read offset size a.onfinish, Event.delete a.onfinish] ++
          (read_exit B (read_enter s) a.set_is_cached a.set_is_dirty_or_committing).2)
        a.file_read := by
  have h1 : bitAnd (read_enter s).latest_caps B.CAP_FILE_RDCACHE ≠ 0 := h
  simp [read, read_body, h1, hr]

theorem read_trace_of_cached (B : CapBits) (s : State) (offset : Int) (size : Nat)
    (a : ReadAnswers) (h : bitAnd s.latest_caps B.CAP_FILE_RDCACHE ≠ 0) :
    (read B s offset size a).trace.filter Event.oc_call =
      [Event.file_read offset size a.onfinish] := by
  have h1 : bitAnd (read_enter s).latest_caps B.CAP_FILE_RDCACHE ≠ 0 := h
  by_cases hr : a.file_read = 0
  · cases hw : (read_wait a.done).2 with
    | none =>
      simp [read, read_body, h1, hr, hw, ReadOutcome.trace, Event.oc_call,
        filter_oc_call_read_wait]
    | some v =>
      simp [read, read_body, h1, hr, hw, ReadOutcome.trace, Event.oc_call,
        filter_oc_call_read_wait, filter_oc_call_read_exit]
  · rw [read_of_cached_now B s offset size a h hr]
    simp [ReadOutcome.trace, Event.oc_call, filter_oc_call_read_exit]

/-! ## Returning reads -/

theorem fired_read_wait (obs : List (Option Int)) : fired (read_wait obs).1 = [] := by
  induction obs with
  | nil => rfl
  | cons o rest ih =>
    cases o with
    | none => simpa [read_wait, fired] using ih
    | some v => rfl

theorem fired_read_body (B : CapBits) (s : State) (offset : Int) (size : Nat)
    (a : ReadAnswers) : fired (read_body B s offset size a).1 = [] := by
  unfold read_body
  split
  · simp only
    split
    · simp [fired, fired_read_wait]
    · rfl
  · rfl

theorem read_returned (B : CapBits) (s s1 : State) (offset : Int) (size : Nat)
    (a : ReadAnswers) (t : List Event) (r : Int)
    (h : read B s offset size a = ReadOutcome.returned s1 t r) :
    s1 = (read_exit B (read_enter s) a.set_is_cached a.set_is_dirty_or_committing).1 ∧
    t = (read_body B (read_enter s) offset size a).1 ++
      (read_exit B (read_enter s) a.set_is_cached a.set_is_dirty_or_committing).2 ∧
    (read_body B (read_enter s) offset size a).2 = some r := by
  unfold read at h
  simp only at h
  split at h
  · rename_i r1 hr
    simp only [ReadOutcome.returned.injEq] at h
    exact ⟨h.1.symm, h.2.1.symm, by rw [hr, h.2.2]⟩
  · cases h

theorem read_of_body (B : CapBits) (s : State) (offset : Int) (size : Nat)
    (a : ReadAnswers) (r : Int)
    (h : (read_body B (read_enter s) offset size a).2 = some r) :
    read B s offset size a =
      ReadOutcome.returned
        (read_exit B (read_enter s) a.set_is_cached a.set_is_dirty_or_committing).1
        ((read_body B (read_enter s) offset size a).1 ++
          (read_exit B (read_enter s) a.set_is_cached a.set_is_dirty_or_committing).2)
        r := by
  unfold read
  simp only [h]

theorem read_exit_latest_caps (B : CapBits) (s : State) (c d : Bool) :
    (read_exit B s c d).1.latest_caps = s.latest_caps := by
  simp only [read_exit]
  split <;> rfl

theorem write_exit_latest_caps (B : CapBits) (s : State) (c d : Bool) :
    (write_exit B s c d).1.latest_caps = s.latest_caps := by
  simp only [write_exit]
  split <;> rfl

/-! ## The table after `check_caps` -/

theorem check_caps_table (B : CapBits) (s : State) (c d : Bool) :
    (check_caps B s c d).1.caps_callbacks =
      s.caps_callbacks.filter
        (fun p => decide (bitAnd (check_caps_used B s c d) (bitNot p.1) = 0)) := by
  show (check_caps_loop (check_caps_used B s c d) s.caps_callbacks).1 = _
  rw [check_caps_loop_fst]
  congr 1
  funext p
  rw [bitAnd_comm]

theorem mem_check_caps_table (B : CapBits) (s : State) (c d : Bool)
    (p : Int × List Context) :
    p ∈ (check_caps B s c d).1.caps_callbacks ↔
      p ∈ s.caps_callbacks ∧ bitAnd (check_caps_used B s c d) (bitNot p.1) = 0 := by
  rw [check_caps_table, List.mem_filter]
  simp

theorem check_caps_trace (B : CapBits) (s : State) (c d : Bool) :
    (check_caps B s c d).2 =
      (s.caps_callbacks.filter
        (fun p => decide (bitAnd (check_caps_used B s c d) (bitNot p.1) ≠ 0))).flatMap
        (fun p => finish_contexts p.2) := by
  show (check_caps_loop (check_caps_used B s c d) s.caps_callbacks).2.flatMap
    (fun p => finish_contexts p.2) = _
  rw [check_caps_loop_snd]
  congr 2
  funext p
  rw [bitAnd_comm]

theorem check_caps_loop_of_unsatisfied (used : Int) (tbl : Callbacks)
    (h : ∀ p ∈ tbl, bitAnd (bitNot p.1) used = 0) :
    check_caps_loop used tbl = (tbl, []) := by
  induction tbl with
  | nil => rfl
  | cons p rest ih =>
    have hp := h p (List.mem_cons_self _ _)
    have hr := ih (fun q hq => h q (List.mem_cons_of_mem _ hq))
    simp [check_caps_loop, hp, hr]

theorem check_caps_of_unsatisfied (B : CapBits) (s : State) (c d : Bool)
    (h : ∀ p ∈ s.caps_callbacks, bitAnd (check_caps_used B s c d) (bitNot p.1) = 0) :
    check_caps B s c d = (s, []) := by
  have h1 : ∀ p ∈ s.caps_callbacks,
      bitAnd (bitNot p.1) (check_caps_used B s c d) = 0 := by
    intro p hp
    rw [bitAnd_comm]
    exact h p hp
  simp [check_caps, check_caps_loop_of_unsatisfied _ _ h1]

theorem bitAnd_zero_left (a : Int) : bitAnd 0 a = 0 := by
  rw [bitAnd_eq_zero_iff]
  intro i hi
  rw [bit_zero] at hi
  cases hi

theorem check_caps_used_idle (B : CapBits) (s : State)
    (hr : s.num_reading = 0) (hw : s.num_writing = 0) :
    check_caps_used B s false false = 0 := by
  simp [check_caps_used, hr, hw]

theorem mem_handlers_push_back (tbl : Callbacks) (caps : Int) (c : Context) :
    c ∈ handlers (push_back tbl caps c) := by
  induction tbl with
  | nil => simp [push_back, handlers]
  | cons p rest ih =>
    simp only [push_back]
    split
    · simp [handlers]
    · split
      · simp [handlers]
      · simp only [handlers, List.flatMap_cons, List.mem_append] at ih ⊢
        exact Or.inr ih

/-! ## Handlers are neither lost nor duplicated -/

theorem count_check_caps_loop (used : Int) (tbl : Callbacks) (h : Context) :
    (handlers (check_caps_loop used tbl).2).count h +
      (handlers (check_caps_loop used tbl).1).count h = (handlers tbl).count h := by
  induction tbl with
  | nil => rfl
  | cons p rest ih =>
    simp only [handlers] at ih ⊢
    by_cases hs : bitAnd (bitNot p.1) used = 0
    · simp only [check_caps_loop, hs, ne_eq, not_true_eq_false, if_false,
        List.flatMap_cons, List.count_append]
      omega
    · simp only [check_caps_loop, hs, ne_eq, not_false_eq_true, if_true,
        List.flatMap_cons, List.count_append]
      omega

theorem count_check_caps (B : CapBits) (s : State) (c d : Bool) (h : Context) :
    (fired (check_caps B s c d).2).count h +
      (handlers (check_caps B s c d).1.caps_callbacks).count h =
      (handlers s.caps_callbacks).count h := by
  have e : fired (check_caps B s c d).2 =
      handlers (check_caps_loop (check_caps_used B s c d) s.caps_callbacks).2 :=
    fired_flatMap_finish_contexts _
  rw [e]
  exact count_check_caps_loop _ _ _

theorem count_read_exit (B : CapBits) (s : State) (c d : Bool) (h : Context) :
    (fired (read_exit B s c d).2).count h +
      (handlers (read_exit B s c d).1.caps_callbacks).count h =
      (handlers s.caps_callbacks).count h := by
  simp only [read_exit]
  split
  · exact count_check_caps B _ c d h
  · simp [fired]

theorem count_write_exit (B : CapBits) (s : State) (c d : Bool) (h : Context) :
    (fired (write_exit B s c d).2).count h +
      (handlers (write_exit B s c d).1.caps_callbacks).count h =
      (handlers s.caps_callbacks).count h := by
  simp only [write_exit]
  split
  · exact count_check_caps B _ c d h
  · simp [fired]

theorem count_push_back (tbl : Callbacks) (caps : Int) (c h : Context) :
    (handlers (push_back tbl caps c)).count h = (handlers tbl).count h + [c].count h := by
  induction tbl with
  | nil => simp [push_back, handlers]
  | cons p rest ih =>
    simp only [handlers] at ih ⊢
    simp only [push_back]
    split
    · simp only [List.flatMap_cons, List.count_append]
      omega
    · split
      · simp only [List.flatMap_cons, List.count_append]
        omega
      · simp only [List.flatMap_cons, List.count_append, ih]
        omega

theorem count_set_caps (B : CapBits) (s s1 : State) (caps : Int) (o : Option Context)
    (c d : Bool) (t : List Event) (h : Context)
    (hs : set_caps B s caps o c d = Outcome.returned s1 t) :
    (fired t).count h + (handlers s1.caps_callbacks).count h =
      (handlers s.caps_callbacks).count h + (supplied [Step.set_caps caps o c d]).count h := by
  unfold set_caps at hs
  cases o with
  | none =>
    simp only [Outcome.returned.injEq] at hs
    rw [← hs.1, ← hs.2]
    have e := count_check_caps B { s with latest_caps := caps } c d h
    simp only [supplied, List.count_nil, Nat.add_zero]
    exact e
  | some k =>
    simp only at hs
    split at hs
    · simp only [Outcome.returned.injEq] at hs
      rw [← hs.1, ← hs.2]
      have e := count_check_caps B
        { s with caps_callbacks := push_back s.caps_callbacks caps k, latest_caps := caps }
        c d h
      rw [e]
      exact count_push_back _ _ _ _
    · cases hs

theorem supplied_cons (x : Step) (rest : List Step) :
    supplied (x :: rest) = supplied [x] ++ supplied rest := by
  cases x with
  | set_caps caps o c d => cases o <;> rfl
  | _ => rfl

theorem count_step (B : CapBits) (σ σ1 : Sched) (x : Step) (h : Context)
    (hs : step B σ x = some σ1) :
    (fired σ1.trace).count h + (handlers σ1.fc.caps_callbacks).count h =
      (fired σ.trace).count h + (handlers σ.fc.caps_callbacks).count h +
        (supplied [x]).count h := by
  cases x with
  | read_enter =>
    simp only [step, Option.some.injEq] at hs
    subst hs
    simp [supplied, read_enter]
  | write_enter =>
    simp only [step, Option.some.injEq] at hs
    subst hs
    simp [supplied, write_enter]
  | read_exit c d =>
    simp only [step] at hs
    split at hs
    · cases hs
    · simp only [Option.some.injEq] at hs
      subst hs
      have e := count_read_exit B σ.fc c d h
      simp only [fired_append, List.count_append, supplied, List.count_nil]
      omega
  | write_exit c d =>
    simp only [step] at hs
    split at hs
    · cases hs
    · simp only [Option.some.injEq] at hs
      subst hs
      have e := count_write_exit B σ.fc c d h
      simp only [fired_append, List.count_append, supplied, List.count_nil]
      omega
  | set_caps caps o c d =>
    simp only [step] at hs
    split at hs
    · rename_i s1 t hset
      simp only [Option.some.injEq] at hs
      subst hs
      have e := count_set_caps B σ.fc s1 caps o c d t h hset
      simp only [fired_append, List.count_append]
      omega
    · cases hs
  | check_caps c d =>
    simp only [step, Option.some.injEq] at hs
    subst hs
    have e := count_check_caps B σ.fc c d h
    simp only [fired_append, List.count_append, supplied, List.count_nil]
    omega

theorem count_run (B : CapBits) (steps : List Step) (h : Context) :
    ∀ σ σ1 : Sched, run B σ steps = some σ1 →
      (fired σ1.trace).count h + (handlers σ1.fc.caps_callbacks).count h =
        (fired σ.trace).count h + (handlers σ.fc.caps_callbacks).count h +
          (supplied steps).count h := by
  induction steps with
  | nil =>
    intro σ σ1 hr
    simp only [run, Option.some.injEq] at hr
    subst hr
    simp [supplied]
  | cons x rest ih =>
    intro σ σ1 hr
    simp only [run] at hr
    split at hr
    · rename_i σ2 hs
      have e1 := count_step B σ σ2 x h hs
      have e2 := ih σ2 σ1 hr
      rw [supplied_cons, List.count_append]
      omega
    · cases hr

/-! ## The ordered table -/

theorem stored_of_no_key (tbl : Callbacks) (caps : Int)
    (h : ∀ q ∈ tbl, q.1 ≠ caps) : stored tbl caps = [] := by
  unfold stored
  have : tbl.find? (fun p => decide (p.1 = caps)) = none := by
    rw [List.find?_eq_none]
    intro q hq
    simpa using h q hq
  rw [this]

theorem stored_cons_of_ne (p : Int × List Context) (rest : Callbacks) (caps : Int)
    (h : p.1 ≠ caps) : stored (p :: rest) caps = stored rest caps := by
  unfold stored
  simp [List.find?_cons, h]

theorem stored_cons_of_eq (p : Int × List Context) (rest : Callbacks) (caps : Int)
    (h : p.1 = caps) : stored (p :: rest) caps = p.2 := by
  unfold stored
  simp [List.find?_cons, h]

theorem ordered_cons (p : Int × List Context) (rest : Callbacks) :
    ordered (p :: rest) ↔ (∀ q ∈ rest, p.1 < q.1) ∧ ordered rest := by
  unfold ordered
  simp [List.pairwise_cons]

theorem mem_push_back_stored (tbl : Callbacks) (caps : Int) (c : Context)
    (h : ordered tbl) : (caps, stored tbl caps ++ [c]) ∈ push_back tbl caps c := by
  induction tbl with
  | nil => simp [push_back, stored]
  | cons p rest ih =>
    obtain ⟨hlt, hrest⟩ := (ordered_cons p rest).1 h
    simp only [push_back]
    split
    · rename_i hc
      have hnone : stored (p :: rest) caps = [] := by
        apply stored_of_no_key
        intro q hq
        rcases List.mem_cons.1 hq with e | hq
        · rw [e]; exact ne_of_gt hc
        · exact ne_of_gt (lt_trans hc (hlt q hq))
      rw [hnone]
      simp
    · split
      · rename_i _ he
        rw [stored_cons_of_eq p rest caps he.symm, he]
        simp
      · rename_i _ hne
        rw [stored_cons_of_ne p rest caps (fun e => hne e.symm)]
        exact List.mem_cons_of_mem _ (ih hrest)

theorem mem_push_back_of_ne (tbl : Callbacks) (caps : Int) (c : Context)
    (q : Int × List Context) (hq : q ∈ tbl) (hne : q.1 ≠ caps) :
    q ∈ push_back tbl caps c := by
  induction tbl with
  | nil => cases hq
  | cons p rest ih =>
    simp only [push_back]
    split
    · exact List.mem_cons_of_mem _ hq
    · split
      · rename_i _ he
        rcases List.mem_cons.1 hq with e | hq
        · rw [e] at hne
          exact absurd he.symm hne
        · exact List.mem_cons_of_mem _ hq
      · rcases List.mem_cons.1 hq with e | hq
        · rw [e]
          exact List.mem_cons_self _ _
        · exact List.mem_cons_of_mem _ (ih hq)

theorem key_of_mem_push_back (tbl : Callbacks) (caps : Int) (c : Context)
    (q : Int × List Context) (hq : q ∈ push_back tbl caps c) :
    q.1 = caps ∨ ∃ p ∈ tbl, p.1 = q.1 := by
  induction tbl with
  | nil =>
    simp only [push_back, List.mem_singleton] at hq
    exact Or.inl (by rw [hq])
  | cons p rest ih =>
    simp only [push_back] at hq
    split at hq
    · rcases List.mem_cons.1 hq with e | hq
      · exact Or.inl (by rw [e])
      · exact Or.inr ⟨q, hq, rfl⟩
    · split at hq
      · rcases List.mem_cons.1 hq with e | hq
        · exact Or.inr ⟨p, List.mem_cons_self _ _, by rw [e]⟩
        · exact Or.inr ⟨q, List.mem_cons_of_mem _ hq, rfl⟩
      · rcases List.mem_cons.1 hq with e | hq
        · exact Or.inr ⟨p, List.mem_cons_self _ _, by rw [e]⟩
        · rcases ih hq with e | ⟨p1, hp1, e⟩
          · exact Or.inl e
          · exact Or.inr ⟨p1, List.mem_cons_of_mem _ hp1, e⟩

theorem ordered_push_back (tbl : Callbacks) (caps : Int) (c : Context)
    (h : ordered tbl) : ordered (push_back tbl caps c) := by
  induction tbl with
  | nil => simp [push_back, ordered]
  | cons p rest ih =>
    obtain ⟨hlt, hrest⟩ := (ordered_cons p rest).1 h
    simp only [push_back]
    split
    · rename_i hc
      rw [ordered_cons]
      refine ⟨?_, h⟩
      intro q hq
      rcases List.mem_cons.1 hq with e | hq
      · rw [e]; exact hc
      · exact lt_trans hc (hlt q hq)
    · split
      · rw [ordered_cons]
        exact ⟨hlt, hrest⟩
      · rename_i hnlt hne
        rw [ordered_cons]
        refine ⟨?_, ih hrest⟩
        intro q hq
        rcases key_of_mem_push_back rest caps c q hq with e | ⟨p1, hp1, e⟩
        · rw [e]
          exact lt_of_le_of_ne (not_lt.1 hnlt) (fun e2 => hne e2.symm)
        · rw [← e]
          exact hlt p1 hp1

theorem ordered_filter (tbl : Callbacks) (f : Int × List Context → Bool)
    (h : ordered tbl) : ordered (tbl.filter f) := by
  unfold ordered at h ⊢
  exact List.Pairwise.sublist ((List.filter_sublist tbl).map _) h

theorem ordered_check_caps (B : CapBits) (s : State) (c d : Bool)
    (h : ordered s.caps_callbacks) : ordered (check_caps B s c d).1.caps_callbacks := by
  rw [check_caps_table]
  exact ordered_filter _ _ h

theorem infix_flatMap_of_mem (tbl : Callbacks) (p : Int × List Context) (hp : p ∈ tbl) :
    List.IsInfix (finish_contexts p.2) (tbl.flatMap (fun q => finish_contexts q.2)) := by
  induction tbl with
  | nil => cases hp
  | cons q rest ih =>
    rw [List.flatMap_cons]
    rcases List.mem_cons.1 hp with e | hp
    · rw [e]
      exact (List.prefix_append _ _).isInfix
    · exact (ih hp).trans (List.suffix_append _ _).isInfix

theorem finish_mem_check_caps (B : CapBits) (s : State) (c d : Bool) (k : Context)
    (r : Int) (h : Event.finish k r ∈ (check_caps B s c d).2) :
    k ∈ handlers s.caps_callbacks := by
  rw [check_caps_trace] at h
  obtain ⟨p, hp, hk⟩ := List.mem_flatMap.1 h
  obtain ⟨k2, hk2, e⟩ := List.mem_map.1 hk
  simp only [Event.finish.injEq] at e
  rw [← e.1]
  exact List.mem_flatMap.2 ⟨p, (List.mem_filter.1 hp).1, hk2⟩

theorem finish_mem_read_exit (B : CapBits) (s : State) (c d : Bool) (k : Context)
    (r : Int) (h : Event.finish k r ∈ (read_exit B s c d).2) :
    k ∈ handlers s.caps_callbacks := by
  simp only [read_exit] at h
  split at h
  · exact finish_mem_check_caps B { s with num_reading := s.num_reading - 1 } c d k r h
  · cases h

theorem count_delete_read_exit (B : CapBits) (s : State) (c d : Bool) (k : Context) :
    (read_exit B s c d).2.count (Event.delete k) = 0 := by
  rw [List.count_eq_zero]
  intro h
  have hf : Event.delete k ∈ (read_exit B s c d).2 := h
  simp only [read_exit] at hf
  split at hf
  · rw [check_caps_trace] at hf
    obtain ⟨p, _, hk⟩ := List.mem_flatMap.1 hf
    obtain ⟨k2, _, e⟩ := List.mem_map.1 hk
    cases e
  · cases hf

/-! ## Claims -/

/-- C1: when `check_caps` runs, the group stored under key `K` is handed to
`finish_contexts` (so all its handlers fire) if and only if `used & ~K != 0`,
for every counter value, collaborator status and table; when the handlers of
the table are pairwise distinct, no handler of a group with `used & ~K == 0`
fires.  With `used = READ|WRITE_BUFFERED` the group with key `READ` fires and
the group with key `READ|WRITE_BUFFERED|WRITE` does not. -/
theorem check_caps_fires_iff (B : CapBits) (s : State) (c d : Bool)
    (p : Int × List Context) (hp : p ∈ s.caps_callbacks) :
    (p ∈ check_caps_implemented B s c d ↔
      bitAnd (check_caps_used B s c d) (bitNot p.1) ≠ 0) ∧
    (check_caps B s c d).2 =
      (check_caps_implemented B s c d).flatMap (fun q => finish_contexts q.2) ∧
    (bitAnd (check_caps_used B s c d) (bitNot p.1) ≠ 0 →
      ∀ h ∈ p.2, Event.finish h 0 ∈ (check_caps B s c d).2) ∧
    (bitAnd (check_caps_used B s c d) (bitNot p.1) = 0 →
      (s.caps_callbacks.flatMap (fun q => q.2)).Nodup →
      ∀ h ∈ p.2, h ∉ fired (check_caps B s c d).2) ∧
    (B.distinct_flags → s.num_reading ≠ 0 → s.num_writing = 0 → c = false → d = true →
      check_caps_used B s c d = bitOr B.CAP_FILE_RD B.CAP_FILE_WRBUFFER ∧
      (p.1 = B.CAP_FILE_RD → p ∈ check_caps_implemented B s c d) ∧
      (p.1 = bitOr (bitOr B.CAP_FILE_RD B.CAP_FILE_WRBUFFER) B.CAP_FILE_WR →
        p ∉ check_caps_implemented B s c d)) := by
  have htrace : (check_caps B s c d).2 =
      (check_caps_implemented B s c d).flatMap (fun q => finish_contexts q.2) := rfl
  refine ⟨?_, htrace, ?_, ?_, ?_⟩
  · rw [mem_check_caps_implemented]
    exact ⟨fun h => h.2, fun h => ⟨hp, h⟩⟩
  · intro hsat h hh
    rw [htrace, List.mem_flatMap]
    refine ⟨p, (mem_check_caps_implemented B s c d p).2 ⟨hp, hsat⟩, ?_⟩
    exact List.mem_map.2 ⟨h, hh, rfl⟩
  · intro hunsat hnd h hh hfired
    rw [htrace, fired_flatMap_finish_contexts, List.mem_flatMap] at hfired
    obtain ⟨q, hq, hhq⟩ := hfired
    rw [mem_check_caps_implemented] at hq
    have hne : q ≠ p := by
      intro e
      rw [e] at hq
      exact hq.2 hunsat
    have hpw := (List.nodup_flatMap.1 hnd).2
    have hsym : Symmetric (fun a b : Int × List Context => List.Disjoint a.2 b.2) :=
      fun a b hab => hab.symm
    exact (hpw.forall hsym hq.1 hp hne) hhq hh
  · intro hB hr hw hc hd
    obtain ⟨_, _, _, hWB, _, _, hRDWB, _, _, _⟩ := hB
    have hused : check_caps_used B s c d = bitOr B.CAP_FILE_RD B.CAP_FILE_WRBUFFER := by
      simp [check_caps_used, hr, hw, hc, hd, bitOr_zero_left]
    refine ⟨hused, ?_, ?_⟩
    · intro hk
      rw [mem_check_caps_implemented, hused, hk, bitAnd_ne_zero_iff]
      obtain ⟨i, hi⟩ := exists_bit_of_ne_zero hWB
      have hrd : bit B.CAP_FILE_RD i = false := by
        cases hb : bit B.CAP_FILE_RD i
        · rfl
        · rw [(bitAnd_eq_zero_iff _ _).1 hRDWB i hb] at hi
          exact absurd hi Bool.false_ne_true
      exact ⟨hp, i, by simp [bit_bitOr, hi], by simp [bit_bitNot, hrd]⟩
    · intro hk hmem
      rw [mem_check_caps_implemented, hused, hk] at hmem
      apply hmem.2
      rw [bitAnd_eq_zero_iff]
      intro i hi
      simp only [bit_bitNot, bit_bitOr, hi, Bool.true_or, Bool.not_true]

/-- Witness for C1: one reader in flight, dirty data, and the group under key
`READ` in a table of two groups. -/
theorem check_caps_fires_iff_witness :
    ((2, [7, 8]) : Int × List Context) ∈
        (State.mk 3 [(2, [7, 8]), (22, [9])] 1 0).caps_callbacks ∧
      (((2, [7, 8]) : Int × List Context) ∈ check_caps_implemented ceph_bits
          (State.mk 3 [(2, [7, 8]), (22, [9])] 1 0) false true ↔
        bitAnd (check_caps_used ceph_bits
          (State.mk 3 [(2, [7, 8]), (22, [9])] 1 0) false true) (bitNot 2) ≠ 0) ∧
      ((22, [9]) : Int × List Context) ∉ check_caps_implemented ceph_bits
          (State.mk 3 [(2, [7, 8]), (22, [9])] 1 0) false true :=
  ⟨by decide,
    (check_caps_fires_iff ceph_bits (State.mk 3 [(2, [7, 8]), (22, [9])] 1 0) false true
      (2, [7, 8]) (by decide)).1,
    ((check_caps_fires_iff ceph_bits (State.mk 3 [(2, [7, 8]), (22, [9])] 1 0) false true
      (22, [9]) (by decide)).2.2.2.2 (by decide) (by decide) (by decide) rfl rfl).2.2
      (by decide)⟩

/-- C2: for non-negative counters and four distinct flags, the mask `used`
computed by `check_caps` has the READ bit iff `num_reading > 0`, the
READ_CACHED bit iff the cache reports the file cached, the WRITE bit iff
`num_writing > 0`, the WRITE_BUFFERED bit iff the cache reports it dirty or
committing, and no bit outside the four flags; it does not depend on
`latest_caps`. -/
theorem check_caps_used_bits (B : CapBits) (s : State) (c d : Bool)
    (hB : B.distinct_flags) (hr : 0 ≤ s.num_reading) (hw : 0 ≤ s.num_writing) :
    (bitAnd (check_caps_used B s c d) B.CAP_FILE_RD ≠ 0 ↔ 0 < s.num_reading) ∧
    (bitAnd (check_caps_used B s c d) B.CAP_FILE_RDCACHE ≠ 0 ↔ c = true) ∧
    (bitAnd (check_caps_used B s c d) B.CAP_FILE_WR ≠ 0 ↔ 0 < s.num_writing) ∧
    (bitAnd (check_caps_used B s c d) B.CAP_FILE_WRBUFFER ≠ 0 ↔ d = true) ∧
    bitAnd (check_caps_used B s c d)
      (bitNot (bitOr (bitOr (bitOr B.CAP_FILE_RD B.CAP_FILE_RDCACHE) B.CAP_FILE_WR)
        B.CAP_FILE_WRBUFFER)) = 0 ∧
    (∀ caps : Int, check_caps_used B { s with latest_caps := caps } c d =
      check_caps_used B s c d) := by
  obtain ⟨h1, h2, h3, h4, h12, h13, h14, h23, h24, h34⟩ := hB
  have h21 := h12; rw [bitAnd_comm] at h21
  have h31 := h13; rw [bitAnd_comm] at h31
  have h41 := h14; rw [bitAnd_comm] at h41
  have h32 := h23; rw [bitAnd_comm] at h32
  have h42 := h24; rw [bitAnd_comm] at h42
  have h43 := h34; rw [bitAnd_comm] at h43
  rw [bitAnd_eq_zero_iff] at h12 h13 h14 h23 h24 h34 h21 h31 h41 h32 h42 h43
  have hrpos : 0 < s.num_reading ↔ s.num_reading ≠ 0 :=
    ⟨fun h => ne_of_gt h, fun h => lt_of_le_of_ne hr (Ne.symm h)⟩
  have hwpos : 0 < s.num_writing ↔ s.num_writing ≠ 0 :=
    ⟨fun h => ne_of_gt h, fun h => lt_of_le_of_ne hw (Ne.symm h)⟩
  refine ⟨?_, ?_, ?_, ?_, ?_, fun _ => rfl⟩
  · rw [hrpos, bitAnd_ne_zero_iff]
    constructor
    · rintro ⟨i, hu, hb⟩
      rw [bit_check_caps_used, h12 i hb, h13 i hb, h14 i hb, hb] at hu
      simpa using hu
    · intro hn
      obtain ⟨i, hi⟩ := exists_bit_of_ne_zero h1
      exact ⟨i, by simp [bit_check_caps_used, hn, hi], hi⟩
  · rw [bitAnd_ne_zero_iff]
    constructor
    · rintro ⟨i, hu, hb⟩
      rw [bit_check_caps_used, h21 i hb, h23 i hb, h24 i hb, hb] at hu
      simpa using hu
    · intro hn
      obtain ⟨i, hi⟩ := exists_bit_of_ne_zero h2
      exact ⟨i, by simp [bit_check_caps_used, hn, hi], hi⟩
  · rw [hwpos, bitAnd_ne_zero_iff]
    constructor
    · rintro ⟨i, hu, hb⟩
      rw [bit_check_caps_used, h31 i hb, h32 i hb, h34 i hb, hb] at hu
      simpa using hu
    · intro hn
      obtain ⟨i, hi⟩ := exists_bit_of_ne_zero h3
      exact ⟨i, by simp [bit_check_caps_used, hn, hi], hi⟩
  · rw [bitAnd_ne_zero_iff]
    constructor
    · rintro ⟨i, hu, hb⟩
      rw [bit_check_caps_used, h41 i hb, h42 i hb, h43 i hb, hb] at hu
      simpa using hu
    · intro hn
      obtain ⟨i, hi⟩ := exists_bit_of_ne_zero h4
      exact ⟨i, by simp [bit_check_caps_used, hn, hi], hi⟩
  · rw [bitAnd_eq_zero_iff]
    intro i hu
    rw [bit_check_caps_used] at hu
    simp only [bit_bitNot, bit_bitOr]
    cases hb1 : bit B.CAP_FILE_RD i <;> cases hb2 : bit B.CAP_FILE_RDCACHE i <;>
      cases hb3 : bit B.CAP_FILE_WR i <;> cases hb4 : bit B.CAP_FILE_WRBUFFER i <;>
      simp [hb1, hb2, hb3, hb4] at hu ⊢

/-- Witness for C2: two readers, no writer, cached and clean. -/
theorem check_caps_used_bits_witness :
    ceph_bits.distinct_flags ∧ (0 : Int) ≤ (State.mk 3 [] 2 0).num_reading ∧
      (0 : Int) ≤ (State.mk 3 [] 2 0).num_writing ∧
      (bitAnd (check_caps_used ceph_bits (State.mk 3 [] 2 0) true false)
        ceph_bits.CAP_FILE_RD ≠ 0 ↔ 0 < (State.mk 3 [] 2 0).num_reading) :=
  ⟨by decide, by decide, by decide,
    (check_caps_used_bits ceph_bits (State.mk 3 [] 2 0) true false
      (by decide) (by decide) (by decide)).1⟩

/-- C3: after `check_caps` the table is exactly the entries that were
unsatisfied (`used & ~key == 0`), in their order and with their handler lists
unchanged, and every satisfied entry is gone; the trace of the call fires
exactly the handlers of the satisfied groups, group after group, each handler
once per occurrence and in list order within its group; nothing else of the
object changes. -/
theorem check_caps_table_and_fired (B : CapBits) (s : State) (c d : Bool) :
    (check_caps B s c d).1.caps_callbacks =
      s.caps_callbacks.filter
        (fun p => decide (bitAnd (check_caps_used B s c d) (bitNot p.1) = 0)) ∧
    (∀ p, p ∈ (check_caps B s c d).1.caps_callbacks ↔
      p ∈ s.caps_callbacks ∧ bitAnd (check_caps_used B s c d) (bitNot p.1) = 0) ∧
    (check_caps B s c d).2 =
      (s.caps_callbacks.filter
        (fun p => decide (bitAnd (check_caps_used B s c d) (bitNot p.1) ≠ 0))).flatMap
        (fun p => p.2.map (fun h => Event.finish h 0)) ∧
    fired (check_caps B s c d).2 =
      (s.caps_callbacks.filter
        (fun p => decide (bitAnd (check_caps_used B s c d) (bitNot p.1) ≠ 0))).flatMap
        (fun p => p.2) ∧
    (check_caps B s c d).1.latest_caps = s.latest_caps ∧
    (check_caps B s c d).1.num_reading = s.num_reading ∧
    (check_caps B s c d).1.num_writing = s.num_writing := by
  have htbl : (check_caps B s c d).1.caps_callbacks =
      s.caps_callbacks.filter
        (fun p => decide (bitAnd (check_caps_used B s c d) (bitNot p.1) = 0)) := by
    show (check_caps_loop (check_caps_used B s c d) s.caps_callbacks).1 = _
    rw [check_caps_loop_fst]
    congr 1
    funext p
    rw [bitAnd_comm]
  have htrace : (check_caps B s c d).2 =
      (s.caps_callbacks.filter
        (fun p => decide (bitAnd (check_caps_used B s c d) (bitNot p.1) ≠ 0))).flatMap
        (fun p => p.2.map (fun h => Event.finish h 0)) := by
    show (check_caps_loop (check_caps_used B s c d) s.caps_callbacks).2.flatMap
      (fun p => finish_contexts p.2) = _
    rw [check_caps_loop_snd]
    congr 2
    funext p
    rw [bitAnd_comm]
  have hfired : fired (check_caps B s c d).2 =
      (s.caps_callbacks.filter
        (fun p => decide (bitAnd (check_caps_used B s c d) (bitNot p.1) ≠ 0))).flatMap
        (fun p => p.2) := by
    rw [htrace]
    exact fired_flatMap_finish_contexts _
  refine ⟨htbl, ?_, htrace, hfired, rfl, rfl, rfl⟩
  · intro p
    rw [htbl, List.mem_filter]
    simp

/-- C4: `set_caps` with a completion returns exactly when `old & ~caps != 0`;
when `old & ~caps == 0` the assertion fails with the object unchanged (the
completion not enqueued, `latest_caps` not changed) and nothing fired. -/
theorem set_caps_completion_needs_lost_bit (B : CapBits) (s : State) (caps : Int)
    (onimplement : Context) (c d : Bool) :
    ((∃ s1 t, set_caps B s caps (some onimplement) c d = Outcome.returned s1 t) ↔
      bitAnd s.latest_caps (bitNot caps) ≠ 0) ∧
    (bitAnd s.latest_caps (bitNot caps) = 0 →
      set_caps B s caps (some onimplement) c d = Outcome.aborted s []) := by
  by_cases h : bitAnd s.latest_caps (bitNot caps) = 0
  · simp [set_caps, h]
  · simp [set_caps, h]

/-- Witness for C4: asking for `READ|WRITE` while holding `READ` loses nothing
and is rejected. -/
theorem set_caps_completion_needs_lost_bit_witness :
    bitAnd (State.mk 2 [(1, [3])] 0 0).latest_caps (bitNot 6) = 0 ∧
      set_caps ceph_bits (State.mk 2 [(1, [3])] 0 0) 6 (some 5) true false =
        Outcome.aborted (State.mk 2 [(1, [3])] 0 0) [] :=
  ⟨by decide,
    (set_caps_completion_needs_lost_bit ceph_bits (State.mk 2 [(1, [3])] 0 0) 6 5
      true false).2 (by decide)⟩

/-- C5, as stated, fails: going from `READ` to `WRITE` with a completion adds a
bit that was not held, and the call is accepted. -/
theorem set_caps_grow_accepted :
    ¬ (∀ (B : CapBits) (s : State) (caps : Int) (onimplement : Context) (c d : Bool),
        bitAnd caps (bitNot s.latest_caps) ≠ 0 →
        ∃ s1 t, set_caps B s caps (some onimplement) c d = Outcome.aborted s1 t) := by
  intro h
  obtain ⟨s1, t, e⟩ := h ceph_bits (State.mk 2 [] 0 0) 4 5 false false (by decide)
  have hr : set_caps ceph_bits (State.mk 2 [] 0 0) 4 (some 5) false false =
      Outcome.returned (State.mk 4 [(4, [5])] 0 0) [] := by decide
  rw [hr] at e
  cases e

/-- C5, amended: `set_caps` with a completion is rejected whenever the new
mask keeps every bit of the old one (so whenever it only grows or is equal);
a call that returns has a new mask different from the old one that lacks at
least one bit of the old one. -/
theorem set_caps_completion_loses_a_bit (B : CapBits) (s : State) (caps : Int)
    (onimplement : Context) (c d : Bool) :
    ((∀ i, bit s.latest_caps i = true → bit caps i = true) →
      set_caps B s caps (some onimplement) c d = Outcome.aborted s []) ∧
    (∀ s1 t, set_caps B s caps (some onimplement) c d = Outcome.returned s1 t →
      caps ≠ s.latest_caps ∧ ∃ i, bit s.latest_caps i = true ∧ bit caps i = false) := by
  constructor
  · intro hsub
    have h : bitAnd s.latest_caps (bitNot caps) = 0 := by
      rw [bitAnd_eq_zero_iff]
      intro i hi
      rw [bit_bitNot, hsub i hi]
      rfl
    simp [set_caps, h]
  · intro s1 t hret
    have h : bitAnd s.latest_caps (bitNot caps) ≠ 0 := by
      intro h0
      simp [set_caps, h0] at hret
    obtain ⟨i, hi, hn⟩ := (bitAnd_ne_zero_iff _ _).1 h
    rw [bit_bitNot] at hn
    have hci : bit caps i = false := by
      cases hb : bit caps i
      · rfl
      · rw [hb] at hn
        exact absurd hn (by decide)
    refine ⟨?_, i, hi, hci⟩
    intro e
    rw [e, hi] at hci
    exact absurd hci (by decide)

/-- Witness for C5 amended: going from `READ|READ_CACHED` to `READ` returns,
and bit 0 is lost. -/
theorem set_caps_completion_loses_a_bit_witness :
    set_caps ceph_bits (State.mk 3 [] 0 0) 2 (some 5) false false =
        Outcome.returned (State.mk 2 [(2, [5])] 0 0) [] ∧
      ((2 : Int) ≠ (State.mk 3 [] 0 0).latest_caps ∧
        ∃ i, bit (State.mk 3 [] 0 0).latest_caps i = true ∧ bit 2 i = false) :=
  ⟨by decide,
    (set_caps_completion_loses_a_bit ceph_bits (State.mk 3 [] 0 0) 2 5 false false).2
      (State.mk 2 [(2, [5])] 0 0) [] (by decide)⟩

/-- C6: starting from `num_reading = num_writing = 0`, after every
interleaving of entry and exit steps of `read` and `write` calls (with
`set_caps` and `check_caps` steps in between) `num_reading` is the number of
reads in flight and `num_writing` the number of writes in flight; so neither
is negative, and each is zero once no such call is in flight.  A `read` or
`write` that runs to its return leaves both counters as they were at entry. -/
theorem counters_track_calls_in_flight (B : CapBits) (s : State) (steps : List Step)
    (σ : Sched) (hr : s.num_reading = 0) (hw : s.num_writing = 0)
    (hrun : run B (idle s) steps = some σ) :
    σ.fc.num_reading = σ.reads ∧ σ.fc.num_writing = σ.writes ∧
    0 ≤ σ.fc.num_reading ∧ 0 ≤ σ.fc.num_writing ∧
    (σ.reads = 0 → σ.fc.num_reading = 0) ∧
    (σ.writes = 0 → σ.fc.num_writing = 0) ∧
    (∀ (s0 s1 : State) (offset : Int) (size : Nat) (a : ReadAnswers) (t : List Event)
      (r : Int), read B s0 offset size a = ReadOutcome.returned s1 t r →
      s1.num_reading = s0.num_reading ∧ s1.num_writing = s0.num_writing) ∧
    (∀ (s0 : State) (offset : Int) (size : Nat) (c d : Bool),
      (write B s0 offset size c d).1.num_reading = s0.num_reading ∧
      (write B s0 offset size c d).1.num_writing = s0.num_writing) := by
  have h0 : counted (idle s) := by
    constructor
    · show s.num_reading = ((0 : Nat) : Int)
      rw [hr]; rfl
    · show s.num_writing = ((0 : Nat) : Int)
      rw [hw]; rfl
  obtain ⟨h1, h2⟩ := run_counted B steps (idle s) σ hrun h0
  refine ⟨h1, h2, ?_, ?_, ?_, ?_, ?_, ?_⟩
  · rw [h1]; exact Int.ofNat_nonneg _
  · rw [h2]; exact Int.ofNat_nonneg _
  · intro hz; rw [h1, hz]; rfl
  · intro hz; rw [h2, hz]; rfl
  · intro s0 s1 offset size a t r hread
    unfold read at hread
    simp only at hread
    split at hread
    · simp only [ReadOutcome.returned.injEq] at hread
      have e := read_exit_counters B (read_enter s0) a.set_is_cached
        a.set_is_dirty_or_committing
      rw [← hread.1, e.1, e.2]
      simp [read_enter]
    · cases hread
  · intro s0 offset size c d
    have e := write_exit_counters B (write_enter s0) c d
    show (write_exit B (write_enter s0) c d).1.num_reading = s0.num_reading ∧
      (write_exit B (write_enter s0) c d).1.num_writing = s0.num_writing
    rw [e.1, e.2]
    simp [write_enter]

/-- Witness for C6: a write starts while a read is suspended, the read
returns, then the write returns. -/
theorem counters_track_calls_in_flight_witness :
    (State.mk 3 [(2, [7])] 0 0).num_reading = 0 ∧
      (State.mk 3 [(2, [7])] 0 0).num_writing = 0 ∧
      run ceph_bits (idle (State.mk 3 [(2, [7])] 0 0))
          [Step.read_enter, Step.write_enter, Step.read_exit true false,
            Step.write_exit true false] =
        some (Sched.mk (State.mk 3 [] 0 0) 0 0 [Event.finish 7 0]) ∧
      (Sched.mk (State.mk 3 [] 0 0) 0 0 [Event.finish 7 0]).fc.num_reading =
        (Sched.mk (State.mk 3 [] 0 0) 0 0 [Event.finish 7 0]).reads :=
  ⟨by decide, by decide, by decide,
    (counters_track_calls_in_flight ceph_bits (State.mk 3 [(2, [7])] 0 0)
      [Step.read_enter, Step.write_enter, Step.read_exit true false,
        Step.write_exit true false]
      (Sched.mk (State.mk 3 [] 0 0) 0 0 [Event.finish 7 0])
      (by decide) (by decide) (by decide)).1⟩

/-- C7: when `latest_caps` lacks READ_CACHED, whatever the counters and the
table, `read` returns the result of `file_atomic_sync_read`; its only call to
the object cacher is that one call, with the same offset and size (so no
`file_read`), and it does not wait on its private condition; this also holds
when other calls have changed the object to any `s2` before the exit.  When
READ_CACHED is set its only call to the object cacher is one `file_read`
with the same offset and size (so no `file_atomic_sync_read`). -/
theorem read_path_follows_read_cached (B : CapBits) (s : State) (offset : Int)
    (size : Nat) (a : ReadAnswers) :
    (bitAnd s.latest_caps B.CAP_FILE_RDCACHE = 0 →
      (∃ s1 t, read B s offset size a =
        ReadOutcome.returned s1 t a.file_atomic_sync_read) ∧
      (read B s offset size a).trace.filter Event.oc_call =
        [Event.file_atomic_sync_read offset size] ∧
      Event.cond_wait ∉ (read B s offset size a).trace ∧
      (∀ (s2 : State) (c d : Bool),
        (read_body B (read_enter s) offset size a).2 = some a.file_atomic_sync_read ∧
        ((read_body B (read_enter s) offset size a).1 ++
          (read_exit B s2 c d).2).filter Event.oc_call =
          [Event.file_atomic_sync_read offset size] ∧
        Event.cond_wait ∉ (read_body B (read_enter s) offset size a).1 ++
          (read_exit B s2 c d).2)) ∧
    (bitAnd s.latest_caps B.CAP_FILE_RDCACHE ≠ 0 →
      (read B s offset size a).trace.filter Event.oc_call =
        [Event.file_read offset size a.onfinish]) := by
  constructor
  · intro h
    have h1 : bitAnd (read_enter s).latest_caps B.CAP_FILE_RDCACHE = 0 := h
    rw [read_of_not_cached B s offset size a h]
    refine ⟨⟨_, _, rfl⟩, ?_, ?_, ?_⟩
    · simp [ReadOutcome.trace, Event.oc_call, filter_oc_call_read_exit]
    · simp only [ReadOutcome.trace, List.mem_cons, not_or]
      exact ⟨by simp, cond_wait_not_mem_read_exit _ _ _ _⟩
    · intro s2 c d
      have hb : read_body B (read_enter s) offset size a =
          ([Event.file_atomic_sync_read offset size], some a.file_atomic_sync_read) := by
        simp [read_body, h1]
      rw [hb]
      refine ⟨rfl, ?_, ?_⟩
      · simp [Event.oc_call, filter_oc_call_read_exit]
      · simp only [List.mem_append, not_or]
        exact ⟨by simp, cond_wait_not_mem_read_exit _ _ _ _⟩
  · exact read_trace_of_cached B s offset size a

/-- Witness for C7: mask `READ` only with a writer in flight, and mask
`READ|READ_CACHED`; `read(0, 100)`. -/
theorem read_path_follows_read_cached_witness :
    bitAnd (State.mk 2 [(2, [7])] 0 1).latest_caps ceph_bits.CAP_FILE_RDCACHE = 0 ∧
      (read ceph_bits (State.mk 2 [(2, [7])] 0 1) 0 100
        (ReadAnswers.mk 99 0 [] 100 false false)).trace.filter Event.oc_call =
        [Event.file_atomic_sync_read 0 100] ∧
      bitAnd (State.mk 3 [] 0 0).latest_caps ceph_bits.CAP_FILE_RDCACHE ≠ 0 ∧
      (read ceph_bits (State.mk 3 [] 0 0) 0 100
        (ReadAnswers.mk 99 0 [none, some 100] 0 false false)).trace.filter Event.oc_call =
        [Event.file_read 0 100 99] :=
  ⟨by decide,
    ((read_path_follows_read_cached ceph_bits (State.mk 2 [(2, [7])] 0 1) 0 100
      (ReadAnswers.mk 99 0 [] 100 false false)).1 (by decide)).2.1,
    by decide,
    (read_path_follows_read_cached ceph_bits (State.mk 3 [] 0 0) 0 100
      (ReadAnswers.mk 99 0 [none, some 100] 0 false false)).2 (by decide)⟩

/-- C8, as stated, fails: with READ_CACHED, a read of length 0 that the cache
satisfies at once reports 0 bytes, and `read` takes the 0 as "not yet
satisfied": it waits on its private condition and does not discard the
completion. -/
theorem read_zero_bytes_waits :
    ¬ (∀ (B : CapBits) (s : State) (offset : Int) (size : Nat) (a : ReadAnswers),
        bitAnd s.latest_caps B.CAP_FILE_RDCACHE ≠ 0 →
        0 ≤ a.file_read → a.file_read ≤ size → (∀ o ∈ a.done, o = none) →
        ∃ s1 t, read B s offset size a = ReadOutcome.returned s1 t a.file_read ∧
          Event.cond_wait ∉ t ∧ Event.delete a.onfinish ∈ t) := by
  intro h
  obtain ⟨s1, t, e, _, _⟩ := h ceph_bits (State.mk 3 [] 0 0) 0 0
    (ReadAnswers.mk 99 0 [none] 0 false false) (by decide) (by decide) (by decide)
    (by decide)
  have hb : read ceph_bits (State.mk 3 [] 0 0) 0 0
      (ReadAnswers.mk 99 0 [none] 0 false false) =
      ReadOutcome.blocked (State.mk 3 [] 1 0)
        [Event.file_read 0 0 99, Event.cond_wait] := by decide
  rw [hb] at e
  cases e

/-- C8, amended: with READ_CACHED, when the cache-backed read completes at
once and reports a non-zero value, `read` returns that value without
suspending.  Its only call to the object cacher is the one `file_read`; it
never waits on its private condition, whatever the completion would do
later; it releases the private completion, once, without firing it; and it
goes straight to its exit, which fires handlers of the callback table
only. -/
theorem read_cached_now_returns (B : CapBits) (s : State) (offset : Int) (size : Nat)
    (a : ReadAnswers) (h : bitAnd s.latest_caps B.CAP_FILE_RDCACHE ≠ 0)
    (hr : a.file_read ≠ 0) :
    read B s offset size a =
      ReadOutcome.returned
        (read_exit B (read_enter s) a.set_is_cached a.set_is_dirty_or_committing).1
        ([Event.file_read offset size a.onfinish, Event.delete a.onfinish] ++
          (read_exit B (read_enter s) a.set_is_cached a.set_is_dirty_or_committing).2)
        a.file_read ∧
    (read B s offset size a).trace.filter Event.oc_call =
      [Event.file_read offset size a.onfinish] ∧
    Event.cond_wait ∉ (read B s offset size a).trace ∧
    (read B s offset size a).trace.count (Event.delete a.onfinish) = 1 ∧
    fired (read B s offset size a).trace =
      fired (read_exit B (read_enter s) a.set_is_cached
        a.set_is_dirty_or_committing).2 ∧
    (∀ e ∈ (read B s offset size a).trace, ∀ k r, e = Event.finish k r →
      k ∈ handlers s.caps_callbacks) ∧
    (a.onfinish ∉ handlers s.caps_callbacks →
      ∀ r, Event.finish a.onfinish r ∉ (read B s offset size a).trace) ∧
    (∀ obs : List (Option Int),
      read B s offset size { a with done := obs } = read B s offset size a) := by
  have hread := read_of_cached_now B s offset size a h hr
  have hfin : ∀ e ∈ (read B s offset size a).trace, ∀ k r, e = Event.finish k r →
      k ∈ handlers s.caps_callbacks := by
    intro e he k r hk
    rw [hread] at he
    simp only [ReadOutcome.trace, List.cons_append, List.nil_append, List.mem_cons] at he
    rcases he with he | he | he
    · rw [hk] at he
      cases he
    · rw [hk] at he
      cases he
    · rw [hk] at he
      exact finish_mem_read_exit B (read_enter s) _ _ k r he
  refine ⟨hread, read_trace_of_cached B s offset size a h, ?_, ?_, ?_, hfin, ?_, ?_⟩
  · rw [hread]
    simp only [ReadOutcome.trace, List.mem_append, not_or]
    exact ⟨by simp, cond_wait_not_mem_read_exit _ _ _ _⟩
  · rw [hread]
    simp only [ReadOutcome.trace, List.count_append]
    rw [count_delete_read_exit]
    simp
  · rw [hread]
    simp [ReadOutcome.trace, fired_append, fired]
  · intro hfresh r hm
    exact hfresh (hfin _ hm a.onfinish r rfl)
  · intro obs
    rw [hread]
    exact read_of_cached_now B s offset size { a with done := obs } h hr

/-- Witness for C8 amended: mask `READ|READ_CACHED`, a group pending under key
`READ`; `read(0, 100)` is fully cached and reports 100 bytes. -/
theorem read_cached_now_returns_witness :
    bitAnd (State.mk 3 [(2, [7])] 0 0).latest_caps ceph_bits.CAP_FILE_RDCACHE ≠ 0 ∧
      (ReadAnswers.mk 99 100 [none] 0 true false).file_read ≠ 0 ∧
      read ceph_bits (State.mk 3 [(2, [7])] 0 0) 0 100
          (ReadAnswers.mk 99 100 [none] 0 true false) =
        ReadOutcome.returned (State.mk 3 [] 0 0)
          [Event.file_read 0 100 99, Event.delete 99, Event.finish 7 0] 100 ∧
      Event.cond_wait ∉ (read ceph_bits (State.mk 3 [(2, [7])] 0 0) 0 100
        (ReadAnswers.mk 99 100 [none] 0 true false)).trace :=
  ⟨by decide, by decide, by decide,
    (read_cached_now_returns ceph_bits (State.mk 3 [(2, [7])] 0 0) 0 100
      (ReadAnswers.mk 99 100 [none] 0 true false) (by decide) (by decide)).2.2.1⟩

/-- C9: when `latest_caps` lacks WRITE_BUFFERED, the calls `write` makes to the
object cacher are exactly one `file_atomic_sync_write` with the same offset
and size (so no `wait_for_write` and no `file_write`), and `num_writing`
after the call equals its value before. -/
theorem write_unbuffered_is_sync (B : CapBits) (s : State) (offset : Int) (size : Nat)
    (c d : Bool) (h : bitAnd s.latest_caps B.CAP_FILE_WRBUFFER = 0) :
    (write B s offset size c d).2.filter Event.oc_call =
      [Event.file_atomic_sync_write offset size] ∧
    (write B s offset size c d).2 =
      Event.file_atomic_sync_write offset size :: (write_exit B (write_enter s) c d).2 ∧
    Event.wait_for_write size ∉ (write B s offset size c d).2 ∧
    Event.file_write offset size ∉ (write B s offset size c d).2 ∧
    (write B s offset size c d).1.num_writing = s.num_writing ∧
    (s.num_writing = 0 → (write B s offset size c d).1.num_writing = 0) := by
  have h1 : bitAnd (write_enter s).latest_caps B.CAP_FILE_WRBUFFER = 0 := h
  have ht : (write B s offset size c d).2 =
      Event.file_atomic_sync_write offset size :: (write_exit B (write_enter s) c d).2 := by
    simp [write, write_body, h1]
  have hf : (write B s offset size c d).2.filter Event.oc_call =
      [Event.file_atomic_sync_write offset size] := by
    rw [ht]
    simp [Event.oc_call, filter_oc_call_write_exit]
  have hn : (write B s offset size c d).1.num_writing = s.num_writing := by
    show (write_exit B (write_enter s) c d).1.num_writing = s.num_writing
    rw [(write_exit_counters B (write_enter s) c d).2]
    simp [write_enter]
  refine ⟨hf, ht, ?_, ?_, hn, fun h0 => hn.trans h0⟩
  · intro hm
    have : Event.wait_for_write size ∈
        (write B s offset size c d).2.filter Event.oc_call :=
      List.mem_filter.2 ⟨hm, rfl⟩
    rw [hf] at this
    simp at this
  · intro hm
    have : Event.file_write offset size ∈
        (write B s offset size c d).2.filter Event.oc_call :=
      List.mem_filter.2 ⟨hm, rfl⟩
    rw [hf] at this
    simp at this

/-- Witness for C9: mask `WRITE` only, `write(0, 50)`. -/
theorem write_unbuffered_is_sync_witness :
    bitAnd (State.mk 4 [] 0 0).latest_caps ceph_bits.CAP_FILE_WRBUFFER = 0 ∧
      (write ceph_bits (State.mk 4 [] 0 0) 0 50 false false).2.filter Event.oc_call =
        [Event.file_atomic_sync_write 0 50] :=
  ⟨by decide,
    (write_unbuffered_is_sync ceph_bits (State.mk 4 [] 0 0) 0 50 false false
      (by decide)).1⟩

/-- C10: whenever `empty` does not abort, its calls to the object cacher are
`release_set` first and `flush_set` second; it fires the completion (once,
as the last event) iff `release_set` returned 0 and `flush_set` reported
clean, and otherwise fires nothing; in particular it fires nothing when
`release_set` returned a non-zero count. -/
theorem empty_fires_iff_clean (s s1 : State) (onempty : Context) (release_set : Int)
    (flush_set : Bool) (t : List Event)
    (h : empty s onempty release_set flush_set = Outcome.returned s1 t) :
    t.filter Event.oc_call = [Event.release_set, Event.flush_set onempty] ∧
    t.take 2 = [Event.release_set, Event.flush_set onempty] ∧
    (fired t = [onempty] ↔ release_set = 0 ∧ flush_set = true) ∧
    (release_set = 0 ∧ flush_set = true →
      t = [Event.release_set, Event.flush_set onempty, Event.finish onempty 0]) ∧
    (¬ (release_set = 0 ∧ flush_set = true) → fired t = []) ∧
    (release_set ≠ 0 → fired t = []) ∧
    s1 = s := by
  by_cases hu : release_set = 0 <;> cases flush_set <;>
    simp [empty, release_clean, hu] at h <;>
    obtain ⟨rfl, rfl⟩ := h <;>
    simp [Event.oc_call, fired, hu]

/-- Witness for C10: nothing unclean and the flush already complete. -/
theorem empty_fires_iff_clean_witness :
    empty (State.mk 3 [] 0 0) 4 0 true =
        Outcome.returned (State.mk 3 [] 0 0)
          [Event.release_set, Event.flush_set 4, Event.finish 4 0] ∧
      (fired [Event.release_set, Event.flush_set 4, Event.finish 4 0] = [4] ↔
        (0 : Int) = 0 ∧ true = true) :=
  ⟨by decide,
    (empty_fires_iff_clean (State.mk 3 [] 0 0) (State.mk 3 [] 0 0) 4 0 true
      [Event.release_set, Event.flush_set 4, Event.finish 4 0] (by decide)).2.2.1⟩

/-- C11: `empty` fails its assertion if and only if the two answers of the
object cacher disagree: `release_set` returned a non-zero count while
`flush_set` reported clean, or `release_set` returned 0 while `flush_set`
reported not clean; the failure comes after both calls, leaves the object
unchanged, and the completion is not fired. -/
theorem empty_aborts_iff_disagree (s : State) (onempty : Context) (release_set : Int)
    (flush_set : Bool) :
    ((∃ s1 t, empty s onempty release_set flush_set = Outcome.aborted s1 t) ↔
      (release_set ≠ 0 ∧ flush_set = true) ∨ (release_set = 0 ∧ flush_set = false)) ∧
    (∀ s1 t, empty s onempty release_set flush_set = Outcome.aborted s1 t →
      s1 = s ∧ t = [Event.release_set, Event.flush_set onempty] ∧ fired t = [] ∧
      ∀ r, Event.finish onempty r ∉ t) := by
  by_cases hu : release_set = 0 <;> cases flush_set <;>
    simp [empty, release_clean, hu, fired]

/-- Witness for C11: 4096 unclean bytes released, yet the flush reports
clean. -/
theorem empty_aborts_iff_disagree_witness :
    empty (State.mk 3 [] 0 0) 4 4096 true =
        Outcome.aborted (State.mk 3 [] 0 0) [Event.release_set, Event.flush_set 4] ∧
      fired [Event.release_set, Event.flush_set 4] = [] :=
  ⟨by decide,
    ((empty_aborts_iff_disagree (State.mk 3 [] 0 0) 4 4096 true).2 (State.mk 3 [] 0 0)
      [Event.release_set, Event.flush_set 4] (by decide)).2.2.1⟩

/-- C12: in every state in which `all_safe()` is true, `add_safe_waiter(c)`
fires `c` inline, exactly once, right after its `commit_set` call; for every
answer of `commit_set`, `c` is fired inline exactly when the answer is "safe",
and when it is not fired inline `add_safe_waiter` does not fire it at all. -/
theorem add_safe_waiter_fires_when_safe (c : Context) (set_is_dirty_or_committing : Bool) :
    (all_safe set_is_dirty_or_committing = true →
      add_safe_waiter c (oc_commit_set set_is_dirty_or_committing) =
        [Event.commit_set c, Event.finish c 0] ∧
      fired (add_safe_waiter c (oc_commit_set set_is_dirty_or_committing)) = [c]) ∧
    (∀ commit_set : Bool, fired (add_safe_waiter c commit_set) = [c] ↔ commit_set = true) ∧
    (∀ commit_set : Bool, fired (add_safe_waiter c commit_set) ≠ [c] →
      add_safe_waiter c commit_set = [Event.commit_set c] ∧
      fired (add_safe_waiter c commit_set) = [] ∧
      ∀ r, Event.finish c r ∉ add_safe_waiter c commit_set) := by
  refine ⟨?_, ?_, ?_⟩
  · intro h
    cases set_is_dirty_or_committing
    · exact ⟨rfl, rfl⟩
    · cases h
  · intro a
    cases a <;> simp [add_safe_waiter, fired]
  · intro a
    cases a <;> simp [add_safe_waiter, fired]

/-- Witness for C12: no dirty or committing data. -/
theorem add_safe_waiter_fires_when_safe_witness :
    all_safe false = true ∧
      fired (add_safe_waiter 5 (oc_commit_set false)) = [5] :=
  ⟨by decide, ((add_safe_waiter_fires_when_safe 5 false).1 (by decide)).2⟩

/-- C13: a `read` whose I/O fails returns exactly the error value: the result
of `file_atomic_sync_read`, the non-zero result of `file_read`, or the value
the deferred completion recorded.  The state after a `read` that returns is
the state its exit produces from the entry state and the collaborator status,
whatever the I/O result: two reads from the same state under the same status
end in the same state and fire the same handlers, the counters and
`latest_caps` being as before the call. -/
theorem read_error_is_returned (B : CapBits) (s : State) (offset : Int) (size : Nat)
    (a : ReadAnswers) :
    (bitAnd s.latest_caps B.CAP_FILE_RDCACHE = 0 → a.file_atomic_sync_read < 0 →
      ∃ t, read B s offset size a = ReadOutcome.returned
        (read_exit B (read_enter s) a.set_is_cached a.set_is_dirty_or_committing).1 t
        a.file_atomic_sync_read) ∧
    (bitAnd s.latest_caps B.CAP_FILE_RDCACHE ≠ 0 → a.file_read < 0 →
      ∃ t, read B s offset size a = ReadOutcome.returned
        (read_exit B (read_enter s) a.set_is_cached a.set_is_dirty_or_committing).1 t
        a.file_read) ∧
    (bitAnd s.latest_caps B.CAP_FILE_RDCACHE ≠ 0 → a.file_read = 0 →
      ∀ rvalue, (read_wait a.done).2 = some rvalue → rvalue < 0 →
      ∃ t, read B s offset size a = ReadOutcome.returned
        (read_exit B (read_enter s) a.set_is_cached a.set_is_dirty_or_committing).1 t
        rvalue) ∧
    (∀ (a2 : ReadAnswers) (offset2 : Int) (size2 : Nat) (s1 s2 : State)
      (t t2 : List Event) (r r2 : Int),
      a2.set_is_cached = a.set_is_cached →
      a2.set_is_dirty_or_committing = a.set_is_dirty_or_committing →
      read B s offset size a = ReadOutcome.returned s1 t r →
      read B s offset2 size2 a2 = ReadOutcome.returned s2 t2 r2 →
      s1 = s2 ∧ fired t = fired t2) ∧
    (∀ (s1 : State) (t : List Event) (r : Int),
      read B s offset size a = ReadOutcome.returned s1 t r →
      s1.num_reading = s.num_reading ∧ s1.num_writing = s.num_writing ∧
      s1.latest_caps = s.latest_caps) := by
  refine ⟨?_, ?_, ?_, ?_, ?_⟩
  · intro h _
    exact ⟨_, read_of_not_cached B s offset size a h⟩
  · intro h hr
    exact ⟨_, read_of_cached_now B s offset size a h (ne_of_lt hr)⟩
  · intro h hr rvalue hw _
    have h1 : bitAnd (read_enter s).latest_caps B.CAP_FILE_RDCACHE ≠ 0 := h
    refine ⟨_, read_of_body B s offset size a rvalue ?_⟩
    simp [read_body, h1, hr, hw]
  · intro a2 offset2 size2 s1 s2 t t2 r r2 hc hd h1 h2
    obtain ⟨e1, et1, _⟩ := read_returned B s s1 offset size a t r h1
    obtain ⟨e2, et2, _⟩ := read_returned B s s2 offset2 size2 a2 t2 r2 h2
    rw [hc, hd] at e2 et2
    refine ⟨e1.trans e2.symm, ?_⟩
    rw [et1, et2, fired_append, fired_append, fired_read_body, fired_read_body]
  · intro s1 t r h1
    obtain ⟨e1, _, _⟩ := read_returned B s s1 offset size a t r h1
    have ec := read_exit_counters B (read_enter s) a.set_is_cached
      a.set_is_dirty_or_committing
    have el := read_exit_latest_caps B (read_enter s) a.set_is_cached
      a.set_is_dirty_or_committing
    rw [e1, ec.1, ec.2, el]
    simp [read_enter]

/-- Witness for C13: mask `READ|READ_CACHED`, the deferred completion records
-5; the same read with 100 bytes ends in the same state. -/
theorem read_error_is_returned_witness :
    bitAnd (State.mk 3 [(2, [7])] 0 0).latest_caps ceph_bits.CAP_FILE_RDCACHE ≠ 0 ∧
      (∃ t, read ceph_bits (State.mk 3 [(2, [7])] 0 0) 0 100
          (ReadAnswers.mk 99 0 [none, some (-5)] 0 true false) =
        ReadOutcome.returned
          (read_exit ceph_bits (read_enter (State.mk 3 [(2, [7])] 0 0)) true false).1 t
          (-5)) ∧
      (State.mk 3 [] 0 0 = State.mk 3 [] 0 0 ∧
        fired [Event.file_read 0 100 99, Event.cond_wait, Event.finish 7 0] =
          fired [Event.file_read 0 100 99, Event.delete 99, Event.finish 7 0]) :=
  ⟨by decide,
    (read_error_is_returned ceph_bits (State.mk 3 [(2, [7])] 0 0) 0 100
      (ReadAnswers.mk 99 0 [none, some (-5)] 0 true false)).2.2.1 (by decide) rfl (-5)
      (by decide) (by decide),
    (read_error_is_returned ceph_bits (State.mk 3 [(2, [7])] 0 0) 0 100
      (ReadAnswers.mk 99 0 [none, some (-5)] 0 true false)).2.2.2.1
      (ReadAnswers.mk 99 100 [none] 0 true false) 0 100 (State.mk 3 [] 0 0)
      (State.mk 3 [] 0 0) [Event.file_read 0 100 99, Event.cond_wait, Event.finish 7 0]
      [Event.file_read 0 100 99, Event.delete 99, Event.finish 7 0] (-5) 100 rfl rfl
      (by decide) (by decide)⟩

/-- C14: `flush_dirty` calls `flush_set` exactly once, as its first event and
its only call to the object cacher; it fires the completion inline, exactly
once, iff `flush_set` reports the flush already complete, and otherwise fires
nothing. -/
theorem flush_dirty_fires_iff_complete (onflush : Context) (flush_set : Bool) :
    (flush_dirty onflush flush_set).filter Event.oc_call = [Event.flush_set onflush] ∧
    (flush_dirty onflush flush_set).head? = some (Event.flush_set onflush) ∧
    (fired (flush_dirty onflush flush_set) = [onflush] ↔ flush_set = true) ∧
    (flush_set = true →
      flush_dirty onflush flush_set = [Event.flush_set onflush, Event.finish onflush 0]) ∧
    (flush_set = false →
      flush_dirty onflush flush_set = [Event.flush_set onflush] ∧
      fired (flush_dirty onflush flush_set) = [] ∧
      ∀ r, Event.finish onflush r ∉ flush_dirty onflush flush_set) := by
  cases flush_set <;> simp [flush_dirty, Event.oc_call, fired]

/-- Witness for C14: nothing to flush. -/
theorem flush_dirty_fires_iff_complete_witness :
    flush_dirty 6 true = [Event.flush_set 6, Event.finish 6 0] ∧
      flush_dirty 6 false = [Event.flush_set 6] :=
  ⟨(flush_dirty_fires_iff_complete 6 true).2.2.2.1 rfl,
    ((flush_dirty_fires_iff_complete 6 false).2.2.2.2 rfl).1⟩

/-- C15: run any sequence of `set_caps`, `check_caps` and `read` / `write`
entry and exit steps in which the completions handed to `set_caps` are
pairwise distinct and distinct from the handlers already in the table.  Then
the handlers fired so far together with the handlers in the table are
exactly the initial and the supplied handlers, each once: no handler has been
fired twice, a fired handler is no longer in the table, and a handler in the
table has not been fired. -/
theorem no_handler_fired_twice (B : CapBits) (s : State) (steps : List Step) (σ : Sched)
    (hnd : (handlers s.caps_callbacks ++ supplied steps).Nodup)
    (hrun : run B (idle s) steps = some σ) :
    (fired σ.trace ++ handlers σ.fc.caps_callbacks).Perm
      (handlers s.caps_callbacks ++ supplied steps) ∧
    (fired σ.trace ++ handlers σ.fc.caps_callbacks).Nodup ∧
    (fired σ.trace).Nodup ∧
    (∀ h ∈ fired σ.trace, h ∉ handlers σ.fc.caps_callbacks) ∧
    (∀ h ∈ handlers σ.fc.caps_callbacks, h ∉ fired σ.trace) := by
  have hperm : (fired σ.trace ++ handlers σ.fc.caps_callbacks).Perm
      (handlers s.caps_callbacks ++ supplied steps) := by
    rw [List.perm_iff_count]
    intro h
    have e := count_run B steps h (idle s) σ hrun
    simp only [idle, fired, List.count_nil, Nat.zero_add] at e
    rw [List.count_append, List.count_append]
    exact e
  have hn : (fired σ.trace ++ handlers σ.fc.caps_callbacks).Nodup :=
    (List.Perm.nodup_iff hperm).2 hnd
  have hd := List.disjoint_of_nodup_append hn
  refine ⟨hperm, hn, (List.nodup_append.1 hn).1, ?_, ?_⟩
  · intro h hf ht
    exact hd hf ht
  · intro h ht hf
    exact hd hf ht

/-- Witness for C15: two completions are registered while a read is in
flight; the second fires at once, the first when the read returns. -/
theorem no_handler_fired_twice_witness :
    (handlers (State.mk 3 [] 0 0).caps_callbacks ++
        supplied [Step.read_enter, Step.set_caps 2 (some 5) false false,
          Step.set_caps 0 (some 6) false false, Step.read_exit true false,
          Step.check_caps true false]).Nodup ∧
      run ceph_bits (idle (State.mk 3 [] 0 0))
          [Step.read_enter, Step.set_caps 2 (some 5) false false,
            Step.set_caps 0 (some 6) false false, Step.read_exit true false,
            Step.check_caps true false] =
        some (Sched.mk (State.mk 0 [] 0 0) 0 0
          [Event.finish 6 0, Event.finish 5 0]) ∧
      (fired (Sched.mk (State.mk 0 [] 0 0) 0 0
        [Event.finish 6 0, Event.finish 5 0]).trace).Nodup :=
  ⟨by decide, by decide,
    (no_handler_fired_twice ceph_bits (State.mk 3 [] 0 0)
      [Step.read_enter, Step.set_caps 2 (some 5) false false,
        Step.set_caps 0 (some 6) false false, Step.read_exit true false,
        Step.check_caps true false]
      (Sched.mk (State.mk 0 [] 0 0) 0 0 [Event.finish 6 0, Event.finish 5 0])
      (by decide) (by decide)).2.2.1⟩

/-- C16: the exit of `read` decrements `num_reading` and then is `check_caps`
on the decremented state when the counter is zero and the table is not empty,
and nothing more otherwise; likewise `write` and `num_writing`.  So when the
counter is not zero after the decrement (in particular still positive), or
the table is empty, no handler fires and the table is unchanged; and when the
counter reaches zero with a non-empty table, no key `K` left in the table has
`used & ~K != 0`, `used` being computed from the decremented counters.  Both
branches of `read` end with this exit. -/
theorem exit_reevaluates_at_zero (B : CapBits) (s : State) (c d : Bool) :
    ((read_exit B s c d).1.num_reading = s.num_reading - 1 ∧
      (s.num_reading - 1 = 0 ∧ s.caps_callbacks ≠ [] →
        read_exit B s c d =
          check_caps B { s with num_reading := s.num_reading - 1 } c d) ∧
      (¬ (s.num_reading - 1 = 0 ∧ s.caps_callbacks ≠ []) →
        read_exit B s c d = ({ s with num_reading := s.num_reading - 1 }, [])) ∧
      (s.num_reading - 1 ≠ 0 ∨ s.caps_callbacks = [] →
        (read_exit B s c d).2 = [] ∧
        (read_exit B s c d).1.caps_callbacks = s.caps_callbacks) ∧
      (s.num_reading - 1 = 0 → s.caps_callbacks ≠ [] →
        ∀ p ∈ (read_exit B s c d).1.caps_callbacks,
          bitAnd (check_caps_used B { s with num_reading := s.num_reading - 1 } c d)
            (bitNot p.1) = 0)) ∧
    ((write_exit B s c d).1.num_writing = s.num_writing - 1 ∧
      (s.num_writing - 1 = 0 ∧ s.caps_callbacks ≠ [] →
        write_exit B s c d =
          check_caps B { s with num_writing := s.num_writing - 1 } c d) ∧
      (¬ (s.num_writing - 1 = 0 ∧ s.caps_callbacks ≠ []) →
        write_exit B s c d = ({ s with num_writing := s.num_writing - 1 }, [])) ∧
      (s.num_writing - 1 ≠ 0 ∨ s.caps_callbacks = [] →
        (write_exit B s c d).2 = [] ∧
        (write_exit B s c d).1.caps_callbacks = s.caps_callbacks) ∧
      (s.num_writing - 1 = 0 → s.caps_callbacks ≠ [] →
        ∀ p ∈ (write_exit B s c d).1.caps_callbacks,
          bitAnd (check_caps_used B { s with num_writing := s.num_writing - 1 } c d)
            (bitNot p.1) = 0)) ∧
    (∀ (s0 s1 : State) (offset : Int) (size : Nat) (a : ReadAnswers) (t : List Event)
      (r : Int), read B s0 offset size a = ReadOutcome.returned s1 t r →
      s1 = (read_exit B (read_enter s0) a.set_is_cached a.set_is_dirty_or_committing).1 ∧
      fired t =
        fired (read_exit B (read_enter s0) a.set_is_cached
          a.set_is_dirty_or_committing).2) ∧
    (∀ (s0 : State) (offset : Int) (size : Nat),
      (write B s0 offset size c d).1 = (write_exit B (write_enter s0) c d).1 ∧
      fired (write B s0 offset size c d).2 =
        fired (write_exit B (write_enter s0) c d).2) := by
  refine ⟨⟨(read_exit_counters B s c d).1, ?_, ?_, ?_, ?_⟩,
    ⟨(write_exit_counters B s c d).2, ?_, ?_, ?_, ?_⟩, ?_, ?_⟩
  · intro h
    simp only [read_exit]
    rw [if_pos h]
  · intro h
    simp only [read_exit]
    rw [if_neg h]
  · intro h
    have h1 : ¬ (s.num_reading - 1 = 0 ∧ s.caps_callbacks ≠ []) := by
      rintro ⟨h0, hne⟩
      rcases h with h | h
      · exact h h0
      · exact hne h
    simp only [read_exit]
    rw [if_neg h1]
    exact ⟨rfl, rfl⟩
  · intro h0 hne p hp
    simp only [read_exit] at hp
    rw [if_pos ⟨h0, hne⟩] at hp
    exact ((mem_check_caps_table B _ c d p).1 hp).2
  · intro h
    simp only [write_exit]
    rw [if_pos h]
  · intro h
    simp only [write_exit]
    rw [if_neg h]
  · intro h
    have h1 : ¬ (s.num_writing - 1 = 0 ∧ s.caps_callbacks ≠ []) := by
      rintro ⟨h0, hne⟩
      rcases h with h | h
      · exact h h0
      · exact hne h
    simp only [write_exit]
    rw [if_neg h1]
    exact ⟨rfl, rfl⟩
  · intro h0 hne p hp
    simp only [write_exit] at hp
    rw [if_pos ⟨h0, hne⟩] at hp
    exact ((mem_check_caps_table B _ c d p).1 hp).2
  · intro s0 s1 offset size a t r h
    obtain ⟨e1, et, _⟩ := read_returned B s0 s1 offset size a t r h
    refine ⟨e1, ?_⟩
    rw [et, fired_append, fired_read_body]
    rfl
  · intro s0 offset size
    refine ⟨rfl, ?_⟩
    show fired (write_body B (write_enter s0) offset size ++
      (write_exit B (write_enter s0) c d).2) = _
    rw [fired_append]
    have : fired (write_body B (write_enter s0) offset size) = [] := by
      unfold write_body
      split <;> rfl
    rw [this]
    rfl

/-- Witness for C16: the last reader leaves with a pending group under key
`READ` while the file is cached; a second reader still in flight keeps the
table as it is. -/
theorem exit_reevaluates_at_zero_witness :
    read_exit ceph_bits (State.mk 3 [(2, [7])] 1 0) true false =
        check_caps ceph_bits (State.mk 3 [(2, [7])] 0 0) true false ∧
      ((read_exit ceph_bits (State.mk 3 [(2, [7])] 2 0) true false).2 = [] ∧
        (read_exit ceph_bits (State.mk 3 [(2, [7])] 2 0) true false).1.caps_callbacks =
          (State.mk 3 [(2, [7])] 2 0).caps_callbacks) :=
  ⟨(exit_reevaluates_at_zero ceph_bits (State.mk 3 [(2, [7])] 1 0) true false).1.2.1
      (by decide),
    (exit_reevaluates_at_zero ceph_bits (State.mk 3 [(2, [7])] 2 0) true false).1.2.2.2.1
      (Or.inl (by decide))⟩

/-- C17: when `latest_caps` has WRITE_BUFFERED, the calls `write` makes to the
object cacher are exactly one `wait_for_write` for `size` bytes and then one
`file_write` with the same offset and size, in that order; it makes no
`file_atomic_sync_write` call. -/
theorem write_buffered_waits_then_writes (B : CapBits) (s : State) (offset : Int)
    (size : Nat) (c d : Bool) (h : bitAnd s.latest_caps B.CAP_FILE_WRBUFFER ≠ 0) :
    (write B s offset size c d).2 =
      Event.wait_for_write size :: Event.file_write offset size ::
        (write_exit B (write_enter s) c d).2 ∧
    (write B s offset size c d).2.filter Event.oc_call =
      [Event.wait_for_write size, Event.file_write offset size] ∧
    (∀ (offset2 : Int) (size2 : Nat),
      Event.file_atomic_sync_write offset2 size2 ∉ (write B s offset size c d).2) := by
  have h1 : bitAnd (write_enter s).latest_caps B.CAP_FILE_WRBUFFER ≠ 0 := h
  have ht : (write B s offset size c d).2 =
      Event.wait_for_write size :: Event.file_write offset size ::
        (write_exit B (write_enter s) c d).2 := by
    simp [write, write_body, h1]
  have hf : (write B s offset size c d).2.filter Event.oc_call =
      [Event.wait_for_write size, Event.file_write offset size] := by
    rw [ht]
    simp [Event.oc_call, filter_oc_call_write_exit]
  refine ⟨ht, hf, ?_⟩
  intro offset2 size2 hm
  have : Event.file_atomic_sync_write offset2 size2 ∈
      (write B s offset size c d).2.filter Event.oc_call :=
    List.mem_filter.2 ⟨hm, rfl⟩
  rw [hf] at this
  simp at this

/-- Witness for C17: mask `WRITE|WRITE_BUFFERED`, `write(8, 50)`. -/
theorem write_buffered_waits_then_writes_witness :
    bitAnd (State.mk 20 [] 0 0).latest_caps ceph_bits.CAP_FILE_WRBUFFER ≠ 0 ∧
      (write ceph_bits (State.mk 20 [] 0 0) 8 50 false true).2.filter Event.oc_call =
        [Event.wait_for_write 50, Event.file_write 8 50] :=
  ⟨by decide,
    (write_buffered_waits_then_writes ceph_bits (State.mk 20 [] 0 0) 8 50 false true
      (by decide)).2.1⟩

/-- C18: every `set_caps(caps, c)` that returns leaves `latest_caps = caps`
and is `check_caps` run after the mask is written (a call without a
completion always returns, also when `caps` grows).  A completion `c` is
first appended at the end of the list stored under key `caps`, the other
entries staying as they are; so, the keys of the table being ascending, when
the group under `caps` is unsatisfied (`used & ~caps == 0`) the table
afterwards holds `old_list ++ [c]` under `caps`, and when it is satisfied the
handlers of `old_list ++ [c]` fire in that order, one after the other,
within the call, and no entry under `caps` is left. -/
theorem set_caps_writes_mask_and_appends (B : CapBits) (s s1 : State) (caps : Int)
    (o : Option Context) (c d : Bool) (t : List Event)
    (h : set_caps B s caps o c d = Outcome.returned s1 t) :
    s1.latest_caps = caps ∧
    set_caps B s caps none c d =
      Outcome.returned (check_caps B { s with latest_caps := caps } c d).1
        (check_caps B { s with latest_caps := caps } c d).2 ∧
    (o = none → (s1, t) = check_caps B { s with latest_caps := caps } c d) ∧
    (∀ k, o = some k →
      (s1, t) = check_caps B
        { s with caps_callbacks := push_back s.caps_callbacks caps k,
                 latest_caps := caps } c d ∧
      (∀ q ∈ s.caps_callbacks, q.1 ≠ caps → q ∈ push_back s.caps_callbacks caps k) ∧
      (ordered s.caps_callbacks →
        (caps, stored s.caps_callbacks caps ++ [k]) ∈
          push_back s.caps_callbacks caps k ∧
        ordered (push_back s.caps_callbacks caps k) ∧
        ordered s1.caps_callbacks ∧
        (bitAnd (check_caps_used B s c d) (bitNot caps) = 0 →
          (caps, stored s.caps_callbacks caps ++ [k]) ∈ s1.caps_callbacks) ∧
        (bitAnd (check_caps_used B s c d) (bitNot caps) ≠ 0 →
          List.IsInfix (finish_contexts (stored s.caps_callbacks caps ++ [k])) t ∧
          ∀ q ∈ s1.caps_callbacks, q.1 ≠ caps))) := by
  have hnone : set_caps B s caps none c d =
      Outcome.returned (check_caps B { s with latest_caps := caps } c d).1
        (check_caps B { s with latest_caps := caps } c d).2 := rfl
  cases o with
  | none =>
    rw [hnone] at h
    simp only [Outcome.returned.injEq] at h
    refine ⟨by rw [← h.1]; rfl, hnone, ?_, ?_⟩
    · intro _
      rw [← h.1, ← h.2]
    · intro k hk
      cases hk
  | some k0 =>
    have hlose : bitAnd s.latest_caps (bitNot caps) ≠ 0 := by
      intro h0
      simp [set_caps, h0] at h
    have hret : set_caps B s caps (some k0) c d =
        Outcome.returned
          (check_caps B { s with caps_callbacks := push_back s.caps_callbacks caps k0,
                                 latest_caps := caps } c d).1
          (check_caps B { s with caps_callbacks := push_back s.caps_callbacks caps k0,
                                 latest_caps := caps } c d).2 := by
      simp only [set_caps, hlose, ne_eq, not_false_eq_true, if_true]
    rw [hret] at h
    simp only [Outcome.returned.injEq] at h
    obtain ⟨h1, h2⟩ := h
    refine ⟨by rw [← h1]; rfl, hnone, ?_, ?_⟩
    · intro hk
      cases hk
    · intro k hk
      simp only [Option.some.injEq] at hk
      subst hk
      refine ⟨by rw [← h1, ← h2], ?_, ?_⟩
      · intro q hq hne
        exact mem_push_back_of_ne _ _ _ q hq hne
      · intro hord
        have hmem := mem_push_back_stored s.caps_callbacks caps k0 hord
        have hord2 := ordered_push_back s.caps_callbacks caps k0 hord
        refine ⟨hmem, hord2, ?_, ?_, ?_⟩
        · rw [← h1]
          exact ordered_check_caps B _ c d hord2
        · intro hz
          rw [← h1]
          exact (mem_check_caps_table B _ c d _).2 ⟨hmem, hz⟩
        · intro hnz
          constructor
          · rw [← h2, check_caps_trace]
            apply infix_flatMap_of_mem _
              ((caps, stored s.caps_callbacks caps ++ [k0]) : Int × List Context)
            rw [List.mem_filter]
            exact ⟨hmem, by simpa using hnz⟩
          · intro q hq hk
            rw [← h1] at hq
            have hq2 := ((mem_check_caps_table B _ c d q).1 hq).2
            rw [hk] at hq2
            exact hnz hq2

/-- Witness for C18: a second completion is registered under key `READ`
while a reader is in flight, and stays pending behind the first. -/
theorem set_caps_writes_mask_and_appends_witness :
    set_caps ceph_bits (State.mk 3 [(2, [7])] 1 0) 2 (some 8) false false =
        Outcome.returned (State.mk 2 [(2, [7, 8])] 1 0) [] ∧
      (State.mk 2 [(2, [7, 8])] 1 0).latest_caps = 2 ∧
      ((2, stored (State.mk 3 [(2, [7])] 1 0).caps_callbacks 2 ++ [8]) :
          Int × List Context) ∈ (State.mk 2 [(2, [7, 8])] 1 0).caps_callbacks :=
  ⟨by decide,
    (set_caps_writes_mask_and_appends ceph_bits (State.mk 3 [(2, [7])] 1 0)
      (State.mk 2 [(2, [7, 8])] 1 0) 2 (some 8) false false [] (by decide)).1,
    ((((set_caps_writes_mask_and_appends ceph_bits (State.mk 3 [(2, [7])] 1 0)
      (State.mk 2 [(2, [7, 8])] 1 0) 2 (some 8) false false [] (by decide)).2.2.2
      8 rfl).2.2 (by decide)).2.2.2.1 (by decide))⟩

/-- C19: after `check_caps` every key `K` left in the table has
`used & ~K == 0`; `check_caps` leaves `latest_caps`, `num_reading` and
`num_writing` unchanged, so under the same collaborator status `used` is the
same, and a second run fires no handler and leaves the table unchanged. -/
theorem check_caps_idempotent (B : CapBits) (s : State) (c d : Bool) :
    (∀ p ∈ (check_caps B s c d).1.caps_callbacks,
      bitAnd (check_caps_used B s c d) (bitNot p.1) = 0) ∧
    (∀ p ∈ (check_caps B s c d).1.caps_callbacks, ∀ i,
      bit (check_caps_used B s c d) i = true → bit p.1 i = true) ∧
    check_caps_used B (check_caps B s c d).1 c d = check_caps_used B s c d ∧
    check_caps B (check_caps B s c d).1 c d = ((check_caps B s c d).1, []) ∧
    (check_caps B s c d).1.latest_caps = s.latest_caps ∧
    (check_caps B s c d).1.num_reading = s.num_reading ∧
    (check_caps B s c d).1.num_writing = s.num_writing := by
  have hkeep : ∀ p ∈ (check_caps B s c d).1.caps_callbacks,
      bitAnd (check_caps_used B s c d) (bitNot p.1) = 0 :=
    fun p hp => ((mem_check_caps_table B s c d p).1 hp).2
  have hused : check_caps_used B (check_caps B s c d).1 c d = check_caps_used B s c d :=
    rfl
  refine ⟨hkeep, ?_, hused, ?_, rfl, rfl, rfl⟩
  · intro p hp i hi
    have h0 := (bitAnd_eq_zero_iff _ _).1 (hkeep p hp) i hi
    rw [bit_bitNot] at h0
    cases hb : bit p.1 i
    · rw [hb] at h0
      cases h0
    · rfl
  · apply check_caps_of_unsatisfied
    intro p hp
    rw [hused]
    exact hkeep p hp

/-- C20: on an idle file (no reader, no writer, nothing cached, nothing dirty
or committing) `check_caps` fires no handler and leaves the object unchanged,
for every table; so a completion registered there with `set_caps` is not
fired by that call and is in the table afterwards, and an entry stays in the
table through every `check_caps` whose `used` has no bit outside its key.  A
group whose key contains all four flags is never handed to `finish_contexts`
and stays in the table. -/
theorem check_caps_idle_fires_nothing (B : CapBits) (s : State) :
    (s.num_reading = 0 → s.num_writing = 0 →
      check_caps B s false false = (s, []) ∧
      (∀ (caps : Int) (onimplement : Context),
        bitAnd s.latest_caps (bitNot caps) ≠ 0 →
        set_caps B s caps (some onimplement) false false =
          Outcome.returned
            { s with caps_callbacks := push_back s.caps_callbacks caps onimplement,
                     latest_caps := caps } [] ∧
        onimplement ∈ handlers (push_back s.caps_callbacks caps onimplement))) ∧
    (∀ (c d : Bool) (p : Int × List Context), p ∈ s.caps_callbacks →
      bitAnd (check_caps_used B s c d) (bitNot p.1) = 0 →
      p ∈ (check_caps B s c d).1.caps_callbacks ∧ p ∉ check_caps_implemented B s c d) ∧
    (∀ (c d : Bool) (p : Int × List Context), p ∈ s.caps_callbacks →
      bitAnd B.CAP_FILE_RD (bitNot p.1) = 0 → bitAnd B.CAP_FILE_RDCACHE (bitNot p.1) = 0 →
      bitAnd B.CAP_FILE_WR (bitNot p.1) = 0 → bitAnd B.CAP_FILE_WRBUFFER (bitNot p.1) = 0 →
      p ∉ check_caps_implemented B s c d ∧ p ∈ (check_caps B s c d).1.caps_callbacks) := by
  refine ⟨?_, ?_, ?_⟩
  · intro hr hw
    have hidle : ∀ (s2 : State), s2.num_reading = 0 → s2.num_writing = 0 →
        check_caps B s2 false false = (s2, []) := by
      intro s2 h1 h2
      apply check_caps_of_unsatisfied
      intro p _
      rw [check_caps_used_idle B s2 h1 h2, bitAnd_zero_left]
    refine ⟨hidle s hr hw, ?_⟩
    intro caps onimplement hlose
    refine ⟨?_, mem_handlers_push_back _ _ _⟩
    have h2 := hidle
      { s with caps_callbacks := push_back s.caps_callbacks caps onimplement,
               latest_caps := caps } hr hw
    simp only [set_caps, hlose, ne_eq, not_false_eq_true, if_true, h2]
  · intro c d p hp hz
    refine ⟨(mem_check_caps_table B s c d p).2 ⟨hp, hz⟩, ?_⟩
    intro hm
    exact ((mem_check_caps_implemented B s c d p).1 hm).2 hz
  · intro c d p hp h1 h2 h3 h4
    have hz : bitAnd (check_caps_used B s c d) (bitNot p.1) = 0 := by
      rw [bitAnd_eq_zero_iff] at h1 h2 h3 h4 ⊢
      intro i hi
      rw [bit_check_caps_used] at hi
      simp only [Bool.or_eq_true, Bool.and_eq_true] at hi
      rcases hi with ((hi | hi) | hi) | hi
      · exact h1 i hi.2
      · exact h2 i hi.2
      · exact h3 i hi.2
      · exact h4 i hi.2
    refine ⟨?_, (mem_check_caps_table B s c d p).2 ⟨hp, hz⟩⟩
    intro hm
    exact ((mem_check_caps_implemented B s c d p).1 hm).2 hz

/-- Witness for C20: an idle file holding `READ|READ_CACHED` is asked to drop
to `READ`. -/
theorem check_caps_idle_fires_nothing_witness :
    (State.mk 3 [(1, [4])] 0 0).num_reading = 0 ∧
      (State.mk 3 [(1, [4])] 0 0).num_writing = 0 ∧
      check_caps ceph_bits (State.mk 3 [(1, [4])] 0 0) false false =
        (State.mk 3 [(1, [4])] 0 0, []) ∧
      set_caps ceph_bits (State.mk 3 [(1, [4])] 0 0) 2 (some 5) false false =
        Outcome.returned
          { State.mk 3 [(1, [4])] 0 0 with
            caps_callbacks := push_back (State.mk 3 [(1, [4])] 0 0).caps_callbacks 2 5,
            latest_caps := 2 } [] :=
  ⟨by decide, by decide,
    ((check_caps_idle_fires_nothing ceph_bits (State.mk 3 [(1, [4])] 0 0)).1
      (by decide) (by decide)).1,
    (((check_caps_idle_fires_nothing ceph_bits (State.mk 3 [(1, [4])] 0 0)).1
      (by decide) (by decide)).2 2 5 (by decide)).1⟩

end FileCache
